import Mathlib

/-!
Verification of the Visual-Automation workflow engine (route handlers in the
repository's `app/api` directory, here `src/unnamed/part_005`).

The file embeds, shallowly, the two execution engines found in that source:

* the `WorkflowExecutor` class together with its `executeWorkflow` /
  `executeWithBranching` driver and `POST` handler (the "class engine"), and
* the standalone `executeCurrentWorkflow` / `executeDependencyAwareWorkflow` /
  `executeBranchingWorkflow` functions with their helpers `findStartingNode`,
  `processTemplate`, `getNodeInputData`, `executeNode`, `evaluateCondition`
  (the "standalone engine").

JavaScript dynamic values are modelled by the inductive type `Val`.
Conventions, noted once here and referenced below:

* JS `undefined` is `Val.vundef`; a missing map/object key reads as `vundef`.
* JS numbers are modelled as rationals.  `Number(...)` coercion is modelled by
  `jsToNumber : Val → Option ℚ` with `none` playing the role of `NaN`; string
  numerals are parsed in plain decimal form (hexadecimal, exponent and
  `Infinity` forms are not modelled — nothing verified here exercises them,
  and every NaN-producing input is mapped to `none` exactly as NaN).
* `String(x)` is `jsString`; for plain objects it yields "[object Object]".
  Date/Array-specific stringifications are not modelled (never exercised).
* `JSON.stringify` is `jsonStringify`; the two-space indented variant used by
  the class engine's output node is `jsonStringifyIndent`.
* Object identity: `===` on two objects is reference equality in JS; the
  modelled engines never compare two aliased objects with `===`, so
  `strictEq` on two `vobj` values is `false`.
* Async/await is erased: every awaited call in the source either is modelled
  as a pure external collaborator (`Ext`) or only persists telemetry
  (`supabase.from("node_executions").insert`, a fire-and-forget write with no
  influence on the run's value), which is dropped.
* The recursive traversals are written with an explicit fuel argument so that
  every definition is structurally recursive and computable; the drivers pass
  a fuel that is proved (or is easily seen) sufficient, and fuel exhaustion
  surfaces as `none`.
-/

namespace VisualWorkflow

/-- JavaScript runtime values, as far as the engines manipulate them. -/
inductive Val where
  | vundef : Val
  | vnull : Val
  | vbool (b : Bool) : Val
  | vnum (q : ℚ) : Val
  | vstr (s : String) : Val
  | vobj (fields : List (String × Val)) : Val

mutual

def Val.decEq : (x y : Val) → Decidable (x = y)
  | .vundef, .vundef => isTrue rfl
  | .vnull, .vnull => isTrue rfl
  | .vbool a, .vbool b =>
    match Bool.decEq a b with
    | isTrue h => isTrue (by rw [h])
    | isFalse h => isFalse (by intro hh; cases hh; exact h rfl)
  | .vnum a, .vnum b =>
    if h : a = b then isTrue (by rw [h])
    else isFalse (by intro hh; cases hh; exact h rfl)
  | .vstr a, .vstr b =>
    match String.decEq a b with
    | isTrue h => isTrue (by rw [h])
    | isFalse h => isFalse (by intro hh; cases hh; exact h rfl)
  | .vobj fs, .vobj gs =>
    match Val.decEqFields fs gs with
    | isTrue h => isTrue (by rw [h])
    | isFalse h => isFalse (by intro hh; cases hh; exact h rfl)
  | .vundef, .vnull | .vundef, .vbool _ | .vundef, .vnum _ | .vundef, .vstr _
  | .vundef, .vobj _ | .vnull, .vundef | .vnull, .vbool _ | .vnull, .vnum _
  | .vnull, .vstr _ | .vnull, .vobj _ | .vbool _, .vundef | .vbool _, .vnull
  | .vbool _, .vnum _ | .vbool _, .vstr _ | .vbool _, .vobj _ | .vnum _, .vundef
  | .vnum _, .vnull | .vnum _, .vbool _ | .vnum _, .vstr _ | .vnum _, .vobj _
  | .vstr _, .vundef | .vstr _, .vnull | .vstr _, .vbool _ | .vstr _, .vnum _
  | .vstr _, .vobj _ | .vobj _, .vundef | .vobj _, .vnull | .vobj _, .vbool _
  | .vobj _, .vnum _ | .vobj _, .vstr _ => isFalse (by intro h; cases h)

def Val.decEqFields : (xs ys : List (String × Val)) → Decidable (xs = ys)
  | [], [] => isTrue rfl
  | [], _ :: _ => isFalse (by intro h; cases h)
  | _ :: _, [] => isFalse (by intro h; cases h)
  | (k, v) :: r, (k2, v2) :: r2 =>
    match String.decEq k k2, Val.decEq v v2, Val.decEqFields r r2 with
    | isTrue h1, isTrue h2, isTrue h3 => isTrue (by rw [h1, h2, h3])
    | isFalse h1, _, _ => isFalse (by intro hh; cases hh; exact h1 rfl)
    | _, isFalse h2, _ => isFalse (by intro hh; cases hh; exact h2 rfl)
    | _, _, isFalse h3 => isFalse (by intro hh; cases hh; exact h3 rfl)

end

instance : DecidableEq Val := Val.decEq

namespace Val

/-- JS truthiness. `0`, `""`, `null`, `undefined`, `false` are falsy (NaN is
never stored as a value by the modelled code paths). -/
def truthy : Val → Bool
  | vundef => false
  | vnull => false
  | vbool b => b
  | vnum q => q ≠ 0
  | vstr s => s ≠ ""
  | vobj _ => true

/-- JS `a || b`. -/
def jsOr (a b : Val) : Val := if a.truthy then a else b

end Val

open Val

/-!
Core `String` functions such as `String.trim` and `String.splitOn` are
implemented over byte positions and do not reduce inside the kernel, so the
handful of string operations the engines need are (re)defined here over
`List Char`, keeping every definition evaluable by `decide`.
-/

/-- JS `s.trim()`. -/
def strTrim (s : String) : String :=
  String.mk (((s.data.dropWhile Char.isWhitespace).reverse.dropWhile
    Char.isWhitespace).reverse)

/-- Split a character list at every occurrence of `c` (JS `s.split(c)`):
`"a..b"` splits into `["a", "", "b"]`, and `""` into `[""]`. -/
def splitChar (c : Char) : List Char → List (List Char)
  | [] => [[]]
  | x :: rest =>
    match splitChar c rest with
    | [] => if x = c then [[], []] else [[x]]
    | g :: gs => if x = c then [] :: g :: gs else (x :: g) :: gs

/-- JS `s.split(c)` for a one-character separator. -/
def strSplitChar (c : Char) (s : String) : List String :=
  (splitChar c s.data).map String.mk

/-- JS `s.startsWith(pat)`. -/
def strStartsWith (s pat : String) : Bool := pat.data.isPrefixOf s.data

def strIntercalate (sep : String) : List String → String
  | [] => ""
  | [s] => s
  | s :: rest => s ++ sep ++ strIntercalate sep rest

/-- Read a key from a JS object's field list (first binding wins; the engines
only ever create objects with distinct keys).  A missing key is `vundef`. -/
def objGet (fields : List (String × Val)) (k : String) : Val :=
  match fields.find? (fun p => p.1 == k) with
  | some p => p.2
  | none => vundef

/-- Read a key as an `Option`, `none` meaning the key is absent or `undefined`
(the JS code always tests `!== undefined`, which conflates the two). -/
def objGet? (fields : List (String × Val)) (k : String) : Option Val :=
  match objGet fields k with
  | vundef => none
  | v => some v

/-- JS object / Map assignment `m[k] = v`: overwrite an existing binding in
place, otherwise append at the end. -/
def setKey : List (String × Val) → String → Val → List (String × Val)
  | [], k, v => [(k, v)]
  | p :: rest, k, v =>
    if p.1 == k then (k, v) :: rest else p :: setKey rest k v

/-- `pat` occurs as a contiguous substring of `l` (JS `String.includes`). -/
def charsInfix (pat : List Char) : List Char → Bool
  | [] => pat.isEmpty
  | c :: rest => pat.isPrefixOf (c :: rest) || charsInfix pat rest

/-- JS `s.includes(pat)`. -/
def strIncludes (s pat : String) : Bool := charsInfix pat.data s.data

/-- Replace the first occurrence of `pat` (JS `String.replace` with a string
pattern replaces only the first match). -/
def replaceFirstChars (pat repl : List Char) : List Char → List Char
  | [] => []
  | c :: rest =>
    if pat.isPrefixOf (c :: rest) then repl ++ (c :: rest).drop pat.length
    else c :: replaceFirstChars pat repl rest

/-- JS `s.replace(pat, repl)` for string patterns: first occurrence only. -/
def replaceFirst (s pat repl : String) : String :=
  String.mk (replaceFirstChars pat.data repl.data s.data)

/-- Decimal digit run to a natural number. -/
def digitsVal (l : List Char) : Nat :=
  l.foldl (fun a c => a * 10 + (c.toNat - '0'.toNat)) 0

/-- Parse an unsigned decimal numeral (`10`, `2.5`, `.5`, `5.`), as accepted
by JS `Number(...)` after sign stripping.  `none` is NaN. -/
def parseDecimal (l : List Char) : Option ℚ :=
  let intPart := l.takeWhile Char.isDigit
  let rest := l.dropWhile Char.isDigit
  match rest with
  | [] => if intPart.isEmpty then none else some (digitsVal intPart)
  | '.' :: frac =>
    if frac.all Char.isDigit && !(intPart.isEmpty && frac.isEmpty) then
      some ((digitsVal intPart : ℚ) + (digitsVal frac : ℚ) / (10 ^ frac.length : ℚ))
    else none
  | _ => none

/-- JS `Number(s)` for strings: trimmed; empty coerces to `0`; signed decimal
numerals; everything else is NaN (`none`). -/
def jsStrToNumber (s : String) : Option ℚ :=
  let t := strTrim s
  if t = "" then some 0
  else
    match t.data with
    | '+' :: rest => parseDecimal rest
    | '-' :: rest => (parseDecimal rest).map (fun q => -q)
    | l => parseDecimal l

/-- JS `Number(v)`.  `none` is NaN.  Objects coerce through `toPrimitive`,
which for the plain objects built by these engines is NaN. -/
def jsToNumber : Val → Option ℚ
  | vundef => none
  | vnull => some 0
  | vbool b => some (if b then 1 else 0)
  | vnum q => some q
  | vstr s => jsStrToNumber s
  | vobj _ => none

/-- JS number formatting for the integral case; non-integral rationals fall
back to `num/den` (JS prints doubles with shortest-round-trip formatting,
which is floating-point behaviour that nothing verified here exercises). -/
def numToStr (q : ℚ) : String :=
  if q.den = 1 then toString q.num
  else toString q.num ++ "/" ++ toString q.den

/-- JS `String(v)`. -/
def jsString : Val → String
  | vundef => "undefined"
  | vnull => "null"
  | vbool b => if b then "true" else "false"
  | vnum q => numToStr q
  | vstr s => s
  | vobj _ => "[object Object]"

/-- JS strict equality `===` on the values these engines compare.  Two `vobj`
values compare by reference in JS; the engines never compare aliased objects,
so object/object comparison is `false` here. -/
def strictEq : Val → Val → Bool
  | vundef, vundef => true
  | vnull, vnull => true
  | vbool a, vbool b => a == b
  | vnum a, vnum b => a == b
  | vstr a, vstr b => a == b
  | _, _ => false

/-- Minimal JSON string escaping (quote, backslash, newline — the only
characters the verified inputs can contain that need escaping). -/
def jsonEscape (s : String) : String :=
  s.data.foldr
    (fun c acc =>
      (if c = '"' then "\\\""
       else if c = '\\' then "\\\\"
       else if c = '\n' then "\\n"
       else String.singleton c) ++ acc) ""

def jsonQuote (s : String) : String := "\"" ++ jsonEscape s ++ "\""

mutual

/-- JS `JSON.stringify(v)` (compact form).  `undefined`-valued fields are
omitted, as in JS; a top-level `undefined` never reaches a call site. -/
def jsonStringify : Val → String
  | vundef => "undefined"
  | vnull => "null"
  | vbool b => if b then "true" else "false"
  | vnum q => numToStr q
  | vstr s => jsonQuote s
  | vobj fs => "\x7b" ++ strIntercalate "," (jsonFieldStrings fs) ++ "\x7d"

def jsonFieldStrings : List (String × Val) → List String
  | [] => []
  | (k, v) :: rest =>
    if v = vundef then jsonFieldStrings rest
    else (jsonQuote k ++ ":" ++ jsonStringify v) :: jsonFieldStrings rest

end

example : jsonStringify (vobj [("a", vnum 1), ("b", vobj [("c", vstr "x")])]) =
    "\x7b\"a\":1,\"b\":\x7b\"c\":\"x\"\x7d\x7d" := by decide

example : strIncludes "hello world" "world" = true := by decide
example : replaceFirst "node_1" "node_" "" = "1" := rfl
example : jsStrToNumber "10" = some 10 := by decide
example : jsStrToNumber "abc" = none := by decide
example : (jsStrToNumber "2.5").isSome = true := by decide

/-- `typeof v === 'string'`. -/
def Val.isStr : Val → Bool
  | vstr _ => true
  | _ => false

/-! ## Graph data model

`NodeData`/`WorkflowNode` and `EdgeData`/`WorkflowEdge` from the source,
merged: the branching executors read `sourceHandle` off edges (absent on
plain edges, hence `Option`). -/

structure Node where
  id : String
  type : String
  config : List (String × Val)
deriving DecidableEq

structure Edge where
  id : String
  source : String
  target : String
  sourceHandle : Option String
deriving DecidableEq

/-! ## Template scanning

Both `processTemplate` implementations substitute with the JS regex
`/\x7b\x7b([^}]+)\x7d\x7d/g`: leftmost non-overlapping matches of
`{{` + (one or more non-`}` characters) + `}}`; at a position where no match
starts, the scanner advances one character.  `scanTmpl` is that global
replace, with the per-match callback `f` abstracted; fuel keeps it
structurally recursive, and `template.length + 1` fuel always suffices since
every step consumes at least one character. -/

def scanTmpl (f : String → String) : Nat → List Char → String
  | 0, _ => ""
  | _ + 1, [] => ""
  | fuel + 1, '{' :: '{' :: rest =>
    let body := rest.takeWhile (fun c => c ≠ '}')
    let after := rest.dropWhile (fun c => c ≠ '}')
    match body, after with
    | _ :: _, '}' :: '}' :: rest2 => f (String.mk body) ++ scanTmpl f fuel rest2
    | _, _ => "\x7b" ++ scanTmpl f fuel ('{' :: rest)
  | fuel + 1, c :: rest => String.singleton c ++ scanTmpl f fuel rest

/-- The hard-coded stale node id that both template resolvers special-case. -/
def legacyId : String := "input_1753600591013_e9ksojj74"

/-! ## Standalone engine: `processTemplate(template, context)`

`context` is the per-run `Map` of node results.  The source's early returns
are encoded as an `Option`-valued stage per branch, chained with `orElse`;
a stage yields `none` exactly where the source falls through. -/

/-- The legacy branch: scan the context in insertion order for a string
value under a key containing ".output"; else fall back to `context.get('input')`;
else fall through. -/
def legacyPartS (ctx : List (String × Val)) (trimmedPath : String) : Option String :=
  if strIncludes trimmedPath legacyId then
    match ctx.find? (fun p => strIncludes p.1 ".output" && p.2.isStr) with
    | some p => some (jsString p.2)
    | none =>
      match objGet? ctx "input" with
      | some v => some (jsString v)
      | none => none
  else none

/-- The dotted-path branch: `trimmedPath.split('.', 2)` gives `nodeId` and
`property`; a property present on an object result is stringified with
`String(...)`; else `property === 'output'` on a truthy result returns the
whole result (strings as-is, otherwise `JSON.stringify`); else fall
through.  (`nodeResult && typeof nodeResult === 'object'` holds exactly for
`vobj`: `null` has `typeof` "object" but is falsy.) -/
def dotPartS (ctx : List (String × Val)) (trimmedPath : String) : Option String :=
  if trimmedPath.data.contains '.' then
    let parts := strSplitChar '.' trimmedPath
    let nodeId := parts.headD ""
    let property := (parts.drop 1).headD ""
    match objGet ctx nodeId with
    | vobj fields =>
      if fields.any (fun q => q.1 == property) then
        some (jsString (objGet fields property))
      else if property == "output" then some (jsonStringify (vobj fields))
      else none
    | v =>
      if property == "output" && v.truthy then
        some (match v with | vstr s => s | w => jsonStringify w)
      else none
  else none

/-- The direct branch: `context.get(trimmedPath)`; defined values are
returned as-is for strings and `JSON.stringify`ed otherwise. -/
def directPartS (ctx : List (String × Val)) (trimmedPath : String) : Option String :=
  match objGet ctx trimmedPath with
  | vundef => none
  | vstr s => some s
  | v => some (jsonStringify v)

/-- One `{{...}}` occurrence of the standalone `processTemplate`: the body's
trimmed path through the legacy, dotted and direct branches; an unresolved
path substitutes the original occurrence back. -/
def processVarS (ctx : List (String × Val)) (body : String) : String :=
  let trimmedPath := strTrim body
  (((legacyPartS ctx trimmedPath).orElse
      (fun _ => dotPartS ctx trimmedPath)).orElse
      (fun _ => directPartS ctx trimmedPath)).getD
    ("\x7b\x7b" ++ body ++ "\x7d\x7d")

/-- Standalone `processTemplate(template, context)` on strings. -/
def processTemplate (template : String) (ctx : List (String × Val)) : String :=
  scanTmpl (processVarS ctx) (template.data.length + 1) template.data

/-- Standalone `processTemplate` on arbitrary values: a non-string input is
returned unchanged. -/
def processTemplateVal (template : Val) (ctx : List (String × Val)) : Val :=
  match template with
  | vstr s => vstr (processTemplate s ctx)
  | v => v

/-! ## Condition evaluator

`evaluateCondition(value, compareValue, operator)`, line-for-line identical
in the standalone engine (which takes and ignores a fourth `inputData`
argument) and the `WorkflowExecutor` class.  The `switch` compares
`operator` with `===` against the seven literals, so a non-string operator
falls to `default`. -/

/-- `Number(value) <op> Number(compareValue)`: both sides coerced, any NaN
(`none`) side making the comparison `false`, exactly as in JS. -/
def numericCompare (f : ℚ → ℚ → Bool) (value compareValue : Val) : Bool :=
  match jsToNumber value, jsToNumber compareValue with
  | some a, some b => f a b
  | _, _ => false

def evaluateCondition (value compareValue operator : Val) : Bool :=
  if strictEq operator (vstr "equals") then strictEq value compareValue
  else if strictEq operator (vstr "notEquals") then !strictEq value compareValue
  else if strictEq operator (vstr "greaterThan") then
    numericCompare (fun a b => decide (a > b)) value compareValue
  else if strictEq operator (vstr "lessThan") then
    numericCompare (fun a b => decide (a < b)) value compareValue
  else if strictEq operator (vstr "greaterThanOrEqual") then
    numericCompare (fun a b => decide (a ≥ b)) value compareValue
  else if strictEq operator (vstr "lessThanOrEqual") then
    numericCompare (fun a b => decide (a ≤ b)) value compareValue
  else if strictEq operator (vstr "contains") then
    strIncludes (jsString value) (jsString compareValue)
  else false

/-! ## Standalone engine: node input plumbing -/

/-- One step of the multi-input combination of `getNodeInputData`
(`forEach` body): `combinedInput["input_<index>"] = results.get(source)` then
`combinedInput[source] = results.get(source)`. -/
def combineStep (results : List (String × Val))
    (acc : List (String × Val)) (p : Nat × Edge) : List (String × Val) :=
  setKey (setKey acc ("input_" ++ toString p.1) (objGet results p.2.source))
    p.2.source (objGet results p.2.source)

/-- The combined input object built from several incoming edges. -/
def combinedInputOf (es : List Edge) (results : List (String × Val)) :
    List (String × Val) :=
  es.enum.foldl (combineStep results) []

/-- `getNodeInputData(nodeId, edges, results)`: no incoming edge yields
`null`; one incoming edge passes the predecessor's recorded result through;
several incoming edges are combined into an object keyed positionally
(`input_0`, `input_1`, ...) and by predecessor id, in that per-edge order. -/
def getNodeInputData (nodeId : String) (edges : List Edge)
    (results : List (String × Val)) : Val :=
  let inputEdges := edges.filter (fun e => e.target == nodeId)
  match inputEdges with
  | [] => vnull
  | [e] => objGet results e.source
  | es => vobj (combinedInputOf es results)

/-- `executeNode`'s `effectiveInputData = getNodeInputData(...) || inputData`. -/
def effectiveInputData (nodeId : String) (edges : List Edge)
    (results : List (String × Val)) (inputData : Val) : Val :=
  jsOr (getNodeInputData nodeId edges results) inputData

/-! ## Standalone engine: traversal

The per-node dispatch (`executeNode`) performs external calls (Gemini, file
processing) and a fire-and-forget telemetry insert; the traversal strategies
are proved for an arbitrary dispatch function `exec node results` — the
source's `executeNode(node, previousResults, inputData, executionId, edges)`
with the run-constant arguments captured.  Traversal structure, the only
thing the strategies themselves contribute, is modelled exactly. -/

/-- The dispatch contract the traversals are parameterised over. -/
abbrev ExecFn := Node → List (String × Val) → Val

/-- `executeDependencyAwareWorkflow`'s recursion state: the `executed` and
`executing` sets and the `results` map, in insertion order. -/
structure DepState where
  executed : List String
  executing : List String
  results : List (String × Val)
deriving DecidableEq

def runSrcs (f : String → DepState → Option DepState) :
    List Edge → DepState → Option DepState
  | [], st => some st
  | e :: es, st =>
    match f e.source st with
    | none => none
    | some st' => runSrcs f es st'

/-- `executeNodeWithDependencies(nodeId)`: skip if executed or executing;
mark executing; recursively execute every incoming edge's source; execute the
node, record its result, move it to `executed`.  Fuel replaces the implicit
call stack (recursion depth is at most one frame per distinct node id, so
`nodes.length + 1` suffices; see the sufficiency lemmas). -/
def execNodeDeps (exec : ExecFn) (nodes : List Node) (edges : List Edge) :
    Nat → String → DepState → Option DepState
  | 0, _, _ => none
  | fuel + 1, nodeId, st =>
    if st.executed.contains nodeId || st.executing.contains nodeId then some st
    else
      let st1 : DepState := { st with executing := nodeId :: st.executing }
      match nodes.find? (fun n => n.id == nodeId) with
      | none => some { st1 with executing := st1.executing.erase nodeId }
      | some node =>
        match runSrcs (execNodeDeps exec nodes edges fuel)
            (edges.filter (fun e => e.target == nodeId)) st1 with
        | none => none
        | some st2 =>
          some { executed := st2.executed ++ [nodeId],
                 executing := st2.executing.erase nodeId,
                 results := st2.results ++ [(nodeId, exec node st2.results)] }

def runRoots (exec : ExecFn) (nodes : List Node) (edges : List Edge) :
    List String → DepState → Option DepState
  | [], st => some st
  | i :: is, st =>
    match execNodeDeps exec nodes edges (nodes.length + 1) i st with
    | none => none
    | some st' => runRoots exec nodes edges is st'

/-- `executeDependencyAwareWorkflow(nodes, edges, results, ...)`: run
`executeNodeWithDependencies` over every node id in order. -/
def executeDependencyAwareWorkflow (exec : ExecFn) (nodes : List Node)
    (edges : List Edge) : Option DepState :=
  runRoots exec nodes edges (nodes.map (fun n => n.id)) ⟨[], [], []⟩

/-- `executeBranchingWorkflow`'s state: the `visited` set and the results
map. -/
structure BranchState where
  visited : List String
  results : List (String × Val)
deriving DecidableEq

/-- JS `nodeResult.result` as read by the branching executors.  (On `null` or
`undefined` the JS property access would throw; the real dispatch always
returns an object, and an abstract dispatch returning a non-object models the
read as `undefined`.) -/
def logicResultField : Val → Val
  | vobj fs => objGet fs "result"
  | _ => vundef

def runTargets (f : String → BranchState → Option BranchState) :
    List Edge → BranchState → Option BranchState
  | [], st => some st
  | e :: es, st =>
    match f e.target st with
    | none => none
    | some st' => runTargets f es st'

/-- `executeNodeChain(nodeId)` of `executeBranchingWorkflow`: skip if
visited; execute and record the node; from a `logic` node follow only the
outgoing edge whose `sourceHandle` matches the result's branch (or none);
from any other node follow every outgoing edge. -/
def execChain (exec : ExecFn) (nodes : List Node) (edges : List Edge) :
    Nat → String → BranchState → Option BranchState
  | 0, _, _ => none
  | fuel + 1, nodeId, st =>
    if st.visited.contains nodeId then some st
    else
      let st1 : BranchState := { st with visited := st.visited ++ [nodeId] }
      match nodes.find? (fun n => n.id == nodeId) with
      | none => some st1
      | some node =>
        let nodeResult := exec node st1.results
        let st2 : BranchState :=
          { st1 with results := st1.results ++ [(nodeId, nodeResult)] }
        let outgoing := edges.filter (fun e => e.source == nodeId)
        if node.type == "logic" then
          let expectedHandle :=
            if (logicResultField nodeResult).truthy then "true" else "false"
          match outgoing.find? (fun e => e.sourceHandle == some expectedHandle) with
          | some targetEdge => execChain exec nodes edges fuel targetEdge.target st2
          | none => some st2
        else runTargets (execChain exec nodes edges fuel) outgoing st2

/-- `executeBranchingWorkflow(nodes, edges, startNodeId, ...)`. -/
def executeBranchingWorkflow (exec : ExecFn) (nodes : List Node)
    (edges : List Edge) (startNodeId : String) : Option BranchState :=
  execChain exec nodes edges (nodes.length + 1) startNodeId ⟨[], []⟩

/-- `findStartingNode(nodes, edges)`: first `input` node, else first
`dataEntry` node, else the first node with no incoming edge. -/
def findStartingNode (nodes : List Node) (edges : List Edge) : Option Node :=
  match nodes.find? (fun n => n.type == "input") with
  | some n => some n
  | none =>
    match nodes.find? (fun n => n.type == "dataEntry") with
    | some n => some n
    | none => nodes.find? (fun n => !(edges.any (fun e => e.target == n.id)))

/-- Outcome of `executeCurrentWorkflow`: `success`, the
`Object.fromEntries(results)` output, and the caught error message. -/
structure RunResult where
  success : Bool
  output : Option (List (String × Val))
  error : Option String
deriving DecidableEq

def noStartMsg : String :=
  "No starting node found (input, dataEntry, or orphaned node)"

/-- `executeCurrentWorkflow(nodes, edges, inputData)`: choose the branching
strategy when some node has type `logic` (failing as caught-and-reported
error when no starting node exists), else the dependency-aware strategy.
`none` is fuel exhaustion of the model, never reached with the drivers'
fuel. -/
def executeCurrentWorkflow (exec : ExecFn) (nodes : List Node)
    (edges : List Edge) : Option RunResult :=
  if nodes.any (fun n => n.type == "logic") then
    match findStartingNode nodes edges with
    | none => some ⟨false, none, some noStartMsg⟩
    | some startNode =>
      match executeBranchingWorkflow exec nodes edges startNode.id with
      | none => none
      | some st => some ⟨true, some st.results, none⟩
  else
    match executeDependencyAwareWorkflow exec nodes edges with
    | none => none
    | some st => some ⟨true, some st.results, none⟩

/-! ## Class engine: `WorkflowExecutor`

The class holds one `WorkflowContext` (`variables`, `nodeOutputs`,
`globalData`); its methods are modelled as state-passing functions on
`WContext`. -/

structure WContext where
  /-- the source's `variables` field (`variables` is reserved in Lean) -/
  vars : List (String × Val)
  nodeOutputs : List (String × Val)
  globalData : List (String × Val)
deriving DecidableEq

def emptyWContext : WContext := ⟨[], [], []⟩

/-- `setNodeOutput(nodeId, output)`: record under `nodeOutputs[nodeId]`,
`variables["<nodeId>.output"]` and the volatile `variables["input"]`. -/
def setNodeOutput (c : WContext) (nodeId : String) (output : Val) : WContext :=
  { c with
    nodeOutputs := setKey c.nodeOutputs nodeId output,
    vars := setKey (setKey c.vars (nodeId ++ ".output") output)
      "input" output }

/-- `setGlobalVariable(key, value)`. -/
def setGlobalVariable (c : WContext) (k : String) (v : Val) : WContext :=
  { c with
    globalData := setKey c.globalData k v,
    vars := setKey c.vars k v }

/-- The nested-path walk of `getVariable` after the first segment: descend
through object properties, `undefined` as soon as a step is missing or the
current value is not an object. -/
def nestedWalk (v : Val) : List String → Val
  | [] => v
  | p :: rest =>
    match v with
    | vobj fs => if fs.any (fun q => q.1 == p) then nestedWalk (objGet fs p) rest
                 else vundef
    | _ => vundef

/-- `getVariable(path)`: the exact key in `variables` if present, else split
on `.` and walk, the first segment looked up in `variables` itself. -/
def getVariableW (vars : List (String × Val)) (path : String) : Val :=
  if vars.any (fun p => p.1 == path) then objGet vars path
  else
    match strSplitChar '.' path with
    | [] => vundef
    | p :: rest =>
      if vars.any (fun q => q.1 == p) then nestedWalk (objGet vars p) rest
      else vundef

/-- The literal original `{{body}}` occurrence (the regex `match`). -/
def bracedToken (body : String) : String := "\x7b\x7b" ++ body ++ "\x7d\x7d"

/-- One `{{...}}` occurrence of `WorkflowExecutor.processTemplate`: the
legacy-id correction, then the `node_` remapping, then the direct
`getVariable` lookup; an `undefined` result substitutes the original
occurrence back. -/
def processVarW (vars : List (String × Val)) (body : String) : String :=
  let trimmedPath := strTrim body
  if strIncludes trimmedPath legacyId then
    let correctedPath :=
      if strIncludes trimmedPath ".data" then "1.output"
      else replaceFirst trimmedPath legacyId "1"
    let value := getVariableW vars correctedPath
    if value ≠ vundef then jsString value else bracedToken body
  else if strStartsWith trimmedPath "node_" then
    let nodeNumber := (strSplitChar '.' (replaceFirst trimmedPath "node_" "")).headD ""
    let property :=
      if trimmedPath.data.contains '.' then
        ((strSplitChar '.' trimmedPath).drop 1).headD ""
      else "output"
    let actualPath := nodeNumber ++ "." ++ property
    let value := getVariableW vars actualPath
    if value ≠ vundef then jsString value else bracedToken body
  else
    let value := getVariableW vars trimmedPath
    if value ≠ vundef then jsString value else bracedToken body

/-- `WorkflowExecutor.processTemplate(template)` on strings. -/
def processTemplateW (vars : List (String × Val)) (template : String) : String :=
  scanTmpl (processVarW vars) (template.data.length + 1) template.data

/-- `WorkflowExecutor.processTemplate` on arbitrary values (non-strings pass
through unchanged). -/
def processTemplateValW (vars : List (String × Val)) (template : Val) : Val :=
  match template with
  | vstr s => vstr (processTemplateW vars s)
  | v => v

/-! ## Class engine: per-node dispatch -/

/-- Outcome of the awaited `callGeminiAPI`: success with text, a
`success:false` response with an error, or a thrown exception (already
reduced to the message string the catch block extracts). -/
inductive GeminiOutcome where
  | ok (text : String)
  | fail (err : String)
  | thrown (msg : String)
deriving DecidableEq

/-- External collaborators of the class engine: the Gemini call and
`new Date().toISOString()`. -/
structure Ext where
  gemini : Val → Val → GeminiOutcome
  now : String

def indentStr (n : Nat) : String := String.mk (List.replicate n ' ')

mutual

/-- `JSON.stringify(v, null, 2)` at nesting level `lvl`. -/
def jsonIndentAt : Nat → Val → String
  | _, vundef => "undefined"
  | _, vnull => "null"
  | _, vbool b => if b then "true" else "false"
  | _, vnum q => numToStr q
  | _, vstr s => jsonQuote s
  | lvl, vobj fs =>
    match jsonIndentFields (lvl + 1) fs with
    | [] => "\x7b\x7d"
    | l => "\x7b\n" ++ strIntercalate ",\n" l ++ "\n" ++ indentStr (2 * lvl) ++ "\x7d"

def jsonIndentFields : Nat → List (String × Val) → List String
  | _, [] => []
  | lvl, (k, v) :: rest =>
    if v = vundef then jsonIndentFields lvl rest
    else (indentStr (2 * lvl) ++ jsonQuote k ++ ": " ++ jsonIndentAt lvl v) ::
      jsonIndentFields lvl rest

end

/-- `JSON.stringify(v, null, 2)`. -/
def jsonStringifyIndent (v : Val) : String := jsonIndentAt 0 v

/-- `s.substring(0, 200) + (s.length > 200 ? '...' : '')`. -/
def previewOf (s : String) : String :=
  String.mk (s.data.take 200) ++ (if s.data.length > 200 then "..." else "")

/-- The csv formatting of the output node:
`.replace(/[{}"]/g, '').replace(/:/g, ',')`. -/
def csvTransform (s : String) : String :=
  String.mk ((s.data.filter (fun c => !(c = '\x7b' || c = '\x7d' || c = '"'))).map
    (fun c => if c = ':' then ',' else c))

/-- Configuration read `(node.data.config as any).k`. -/
def cfg (node : Node) (k : String) : Val := objGet node.config k

/-- `executeLogicNode(node)`: re-resolve the condition template against the
current context and evaluate; returns `(result, nextPath)`. -/
def executeLogicNodeW (c : WContext) (node : Node) : Bool × String :=
  let conditionTemplate := jsOr (cfg node "condition") (vstr (bracedToken "input"))
  let processedCondition := processTemplateValW c.vars conditionTemplate
  let compareValue := jsOr (cfg node "compareValue") (vstr "")
  let operator := jsOr (cfg node "operator") (vstr "equals")
  let result := evaluateCondition processedCondition compareValue operator
  (result, if result then "true" else "false")

/-- `WorkflowExecutor.executeNode(node)`: the per-type dispatch, ending in
`setNodeOutput`.  Returns the updated context and the node's output. -/
def executeNodeW (ext : Ext) (c : WContext) (node : Node) : WContext × Val :=
  let currentInput := jsOr (objGet c.vars "input") (vstr "No input yet")
  let output : Val :=
    match node.type with
    | "input" =>
      let inputType := jsOr (cfg node "inputType") (vstr "text")
      let textValue := cfg node "textValue"
      let processedText := cfg node "processedText"
      let data := cfg node "data"
      let description := cfg node "description"
      let initialValue := cfg node "initialValue"
      if strictEq inputType (vstr "text") then
        jsOr textValue (jsOr data (jsOr initialValue (jsOr description
          (vstr "Workflow started"))))
      else if strictEq inputType (vstr "file") then
        jsOr processedText (jsOr data (jsOr description (vstr "No file uploaded")))
      else
        jsOr processedText (jsOr data (jsOr textValue (jsOr initialValue
          (jsOr description (vstr "Workflow started")))))
    | "prompt" =>
      let promptTemplate := jsOr (cfg node "prompt") (vstr "Default prompt")
      let processedPrompt := processTemplateValW c.vars promptTemplate
      let model := jsOr (cfg node "model") (vstr "gemini-1.5-flash")
      match ext.gemini processedPrompt model with
      | .ok t => vstr t
      | .fail e => vstr ("Error from Gemini API: " ++ e)
      | .thrown m => vstr ("Failed to call Gemini API: " ++ m)
    | "api" =>
      let urlTemplate := jsOr (cfg node "url") (vstr "https://api.example.com")
      let processedUrl := processTemplateValW c.vars urlTemplate
      let method := jsOr (cfg node "method") (vstr "GET")
      vstr ("API Response from " ++ jsString method ++ " " ++ jsString processedUrl)
    | "logic" =>
      let conditionTemplate := jsOr (cfg node "condition") (vstr (bracedToken "input"))
      let processedCondition := processTemplateValW c.vars conditionTemplate
      let compareValue := jsOr (cfg node "compareValue") (vstr "")
      let operator := jsOr (cfg node "operator") (vstr "equals")
      let result := evaluateCondition processedCondition compareValue operator
      vobj [("condition", processedCondition), ("result", vbool result),
            ("compareValue", compareValue), ("operator", operator)]
    | "output" =>
      let format := jsOr (cfg node "format") (vstr "json")
      match format with
      | vstr "json" =>
        -- JSON.stringify throws only on circular/BigInt input, neither of
        -- which the engine can produce, so the catch arm is unreachable.
        let jsonData :=
          match currentInput with
          | vstr s => s
          | v => jsonStringifyIndent v
        vobj [("format", vstr "json"), ("data", vstr jsonData),
              ("timestamp", vstr ext.now), ("preview", vstr (previewOf jsonData))]
      | vstr "text" =>
        vobj [("format", vstr "text"), ("data", vstr (jsString currentInput)),
              ("timestamp", vstr ext.now),
              ("preview", vstr (previewOf (jsString currentInput)))]
      | vstr "csv" =>
        let csvData :=
          match currentInput with
          | vobj fs => csvTransform (jsonStringify (vobj fs))
          | vnull => csvTransform (jsonStringify vnull)
          | v => jsString v
        vobj [("format", vstr "csv"), ("data", vstr csvData),
              ("timestamp", vstr ext.now), ("preview", vstr (previewOf csvData))]
      | f =>
        vobj [("format", f), ("data", currentInput), ("timestamp", vstr ext.now),
              ("preview", vstr (previewOf (jsString currentInput)))]
    | _ => currentInput
  (setNodeOutput c node.id output, output)

/-! ## Class engine: traversal (`executeWithBranching`) and `POST` handler -/

structure ChainState where
  visited : List String
  executedNodes : List String
  wctx : WContext
deriving DecidableEq

def runTargetsW (f : String → ChainState → Option ChainState) :
    List Edge → ChainState → Option ChainState
  | [], st => some st
  | e :: es, st =>
    match f e.target st with
    | none => none
    | some st' => runTargetsW f es st'

/-- `executeNodeChain(nodeId)` of `executeWithBranching`: skip if visited;
`executor.executeNode(node)`; push onto `executedNodes`; a `logic` node is
then re-evaluated by `executeLogicNode` (against the context its own
execution just mutated) to pick the single matching edge; any other node
follows all outgoing edges. -/
def execChainW (ext : Ext) (nodes : List Node) (edges : List Edge) :
    Nat → String → ChainState → Option ChainState
  | 0, _, _ => none
  | fuel + 1, nodeId, st =>
    if st.visited.contains nodeId then some st
    else
      let st1 : ChainState := { st with visited := st.visited ++ [nodeId] }
      match nodes.find? (fun n => n.id == nodeId) with
      | none => some st1
      | some node =>
        let ctx2 := (executeNodeW ext st1.wctx node).1
        let st2 : ChainState :=
          { st1 with wctx := ctx2, executedNodes := st1.executedNodes ++ [nodeId] }
        let outgoing := edges.filter (fun e => e.source == nodeId)
        if node.type == "logic" then
          let logicResult := executeLogicNodeW ctx2 node
          let expectedHandle := if logicResult.1 then "true" else "false"
          match outgoing.find? (fun e => e.sourceHandle == some expectedHandle) with
          | some targetEdge => execChainW ext nodes edges fuel targetEdge.target st2
          | none => some st2
        else runTargetsW (execChainW ext nodes edges fuel) outgoing st2

/-- `executeWithBranching(executor, nodes, edges, startNodeId)` from a fresh
executor. -/
def executeWithBranchingW (ext : Ext) (nodes : List Node) (edges : List Edge)
    (startNodeId : String) : Option ChainState :=
  execChainW ext nodes edges (nodes.length + 1) startNodeId ⟨[], [], emptyWContext⟩

/-- `executeWorkflow(nodes, edges)`: requires an `input`-typed start node
(else throws `"No input node found"`), then runs the branching chain and
returns the executor's context. -/
def executeWorkflowW (ext : Ext) (nodes : List Node) (edges : List Edge) :
    Option (Except String ChainState) :=
  match nodes.find? (fun n => n.type == "input") with
  | none => some (Except.error "No input node found")
  | some startNode =>
    match executeWithBranchingW ext nodes edges startNode.id with
    | none => none
    | some st => some (Except.ok st)

/-- The `POST` handler's JSON response for the class engine: on success
`{success: true, result, executedNodes: nodes.length, totalEdges:
edges.length}`, on a thrown error a 500 with
`{error: 'Workflow execution failed', details}`. -/
inductive PostResponse where
  | ok (result : WContext) (executedNodes totalEdges : Nat)
  | err (error details : String)
deriving DecidableEq

/-- The class engine `POST` body after input validation. -/
def postExecuteWorkflow (ext : Ext) (nodes : List Node) (edges : List Edge) :
    Option PostResponse :=
  match executeWorkflowW ext nodes edges with
  | none => none
  | some (Except.ok st) => some (PostResponse.ok st.wctx nodes.length edges.length)
  | some (Except.error msg) => some (PostResponse.err "Workflow execution failed" msg)

/-! ## Claim-support definitions -/

/-- Does a key occur in an object's field list? (JS `k in obj`.) -/
def hasKey (l : List (String × Val)) (k : String) : Bool :=
  l.any (fun p => p.1 == k)

/-- The two operations a run performs on the `WorkflowExecutor` context:
`setNodeOutput` (from `executeNode`) and `setGlobalVariable`.  Template
resolution and `getContext` only read. -/
inductive CtxOp where
  | setOut (id : String) (v : Val)
  | setGlob (k : String) (v : Val)

def applyOp (c : WContext) : CtxOp → WContext
  | CtxOp.setOut id v => setNodeOutput c id v
  | CtxOp.setGlob k v => setGlobalVariable c k v

def runOps (c : WContext) : List CtxOp → WContext
  | [] => c
  | op :: ops => runOps (applyOp c op) ops

/-- The standalone resolver's direct-lookup stringification: strings pass
through, everything else is `JSON.stringify`ed. -/
def stringifyS : Val → String
  | vstr s => s
  | w => jsonStringify w

/-- The output of the last `setOut` in the list, defaulting to `d`. -/
def lastOut : List CtxOp → Val → Val
  | [], d => d
  | CtxOp.setOut _ v :: ops, _ => lastOut ops v
  | CtxOp.setGlob _ _ :: ops, d => lastOut ops d

/-- An execution order respects the edge dependencies: for every edge whose
source is an actual node of the graph, whenever the target was executed the
source was executed strictly earlier.  (Orders produced by the engine are
duplicate-free, so first-occurrence indexes describe execution times.) -/
def DepRespects (nodes : List Node) (edges : List Edge)
    (order : List String) : Prop :=
  ∀ e ∈ edges, (∃ n ∈ nodes, n.id = e.source) → e.target ∈ order →
    e.source ∈ order ∧ order.indexOf e.source < order.indexOf e.target

instance (nodes : List Node) (edges : List Edge) (order : List String) :
    Decidable (DepRespects nodes edges order) := by
  unfold DepRespects; infer_instance

/-- `Option`-valued lookup in a results map (`Map.get`, with presence of the
key distinguished). -/
def resLookup (res : List (String × Val)) (k : String) : Option Val :=
  (res.find? (fun p => p.1 == k)).map (fun p => p.2)

/-- Invariant of the branching traversal: every recorded result key has been
visited. -/
def KeysInv (st : BranchState) : Prop :=
  ∀ k, k ∈ st.results.map Prod.fst → k ∈ st.visited

/-- The edges the branching traversal can follow, given the final results
map: any edge out of a non-`logic` node, and from a `logic` node only the
edge whose `sourceHandle` matches the branch of the recorded result. -/
def FStep (nodes : List Node) (edges : List Edge)
    (res : List (String × Val)) (u v : String) : Prop :=
  ∃ e ∈ edges, e.source = u ∧ e.target = v ∧
    (∀ node, nodes.find? (fun n => n.id == u) = some node → node.type = "logic" →
      ∃ r, resLookup res u = some r ∧
        e.sourceHandle =
          some (if (logicResultField r).truthy then "true" else "false"))

/-- Fuel measure of the branching traversal: node ids not yet visited. -/
def freshL (nodes : List Node) (visited : List String) : Nat :=
  ((nodes.map Node.id).dedup.filter (fun i => !(visited.contains i))).length

/-- The inductive specification of `execChain` (soundness plus totality) at a
given fuel. -/
def ChainP (exec : ExecFn) (nodes : List Node) (edges : List Edge)
    (fuel : Nat) : Prop :=
  ∀ nodeId st, KeysInv st → freshL nodes st.visited < fuel →
    ∃ st', execChain exec nodes edges fuel nodeId st = some st' ∧
      KeysInv st' ∧ (∃ d, st'.visited = st.visited ++ d) ∧
      (∃ d, st'.results = st.results ++ d) ∧
      (∀ x ∈ st'.visited, x ∈ st.visited ∨
        Relation.ReflTransGen (FStep nodes edges st'.results) nodeId x)

/-- The corresponding specification of `runTargets` over a list of outgoing
edges. -/
def TargetsP (exec : ExecFn) (nodes : List Node) (edges : List Edge)
    (fuel : Nat) : Prop :=
  ∀ es st, KeysInv st → freshL nodes st.visited < fuel →
    ∃ st', runTargets (execChain exec nodes edges fuel) es st = some st' ∧
      KeysInv st' ∧ (∃ d, st'.visited = st.visited ++ d) ∧
      (∃ d, st'.results = st.results ++ d) ∧
      (∀ x ∈ st'.visited, x ∈ st.visited ∨ ∃ e ∈ es,
        Relation.ReflTransGen (FStep nodes edges st'.results) e.target x)

/-- Every node-sourced dependency edge into `x` has its source in `before`. -/
def predsDone (nodes : List Node) (edges : List Edge) (x : String)
    (before : List String) : Prop :=
  ∀ e ∈ edges, e.target = x → (∃ n ∈ nodes, n.id = e.source) →
    e.source ∈ before

/-- Every element of the order was executed only after all its node-sourced
dependencies. -/
def GoodOrder (nodes : List Node) (edges : List Edge) (order : List String) :
    Prop :=
  ∀ l1 x l2, order = l1 ++ x :: l2 → predsDone nodes edges x l1

/-- Invariant of the dependency-aware traversal. -/
def DInv (nodes : List Node) (edges : List Edge) (st : DepState) : Prop :=
  st.executed.Nodup ∧
  (∀ x ∈ st.executed, ∃ n ∈ nodes, n.id = x) ∧
  (∀ x ∈ st.executed, x ∉ st.executing) ∧
  st.results.map Prod.fst = st.executed ∧
  GoodOrder nodes edges st.executed

/-- Fuel measure of the dependency-aware traversal: node ids neither executed
nor executing. -/
def freshDL (nodes : List Node) (executed executing : List String) : Nat :=
  ((nodes.map Node.id).dedup.filter
    (fun i => !(executed.contains i) && !(executing.contains i))).length

/-- The inductive specification of `execNodeDeps` at a given fuel, relative
to a rank function witnessing acyclicity. -/
def NodeP (exec : ExecFn) (nodes : List Node) (edges : List Edge)
    (rank : String → Nat) (fuel : Nat) : Prop :=
  ∀ nodeId st, DInv nodes edges st →
    (∀ s ∈ st.executing, rank nodeId < rank s) →
    freshDL nodes st.executed st.executing < fuel →
    ∃ st', execNodeDeps exec nodes edges fuel nodeId st = some st' ∧
      st'.executing = st.executing ∧
      (∃ d, st'.executed = st.executed ++ d) ∧
      (∃ d, st'.results = st.results ++ d) ∧
      DInv nodes edges st' ∧
      ((∃ n ∈ nodes, n.id = nodeId) → nodeId ∈ st'.executed)

/-- The corresponding specification of `runSrcs` over the dependency edges of
the node `m` currently marked executing. -/
def SrcsP (exec : ExecFn) (nodes : List Node) (edges : List Edge)
    (rank : String → Nat) (fuel : Nat) : Prop :=
  ∀ (m : String) (tl : List String) (ds : List Edge) (st : DepState),
    (∀ e ∈ ds, e ∈ edges ∧ e.target = m) →
    st.executing = m :: tl → (∀ s ∈ tl, rank m < rank s) →
    DInv nodes edges st → freshDL nodes st.executed st.executing < fuel →
    ∃ st', runSrcs (execNodeDeps exec nodes edges fuel) ds st = some st' ∧
      st'.executing = st.executing ∧
      (∃ d, st'.executed = st.executed ++ d) ∧
      (∃ d, st'.results = st.results ++ d) ∧
      DInv nodes edges st' ∧
      (∀ e ∈ ds, (∃ n ∈ nodes, n.id = e.source) → e.source ∈ st'.executed)

instance : DecidableEq (Except String ChainState)
  | Except.ok a, Except.ok b =>
    if h : a = b then isTrue (by rw [h])
    else isFalse (by intro hh; cases hh; exact h rfl)
  | Except.error a, Except.error b =>
    if h : a = b then isTrue (by rw [h])
    else isFalse (by intro hh; cases hh; exact h rfl)
  | Except.ok _, Except.error _ => isFalse (by intro h; cases h)
  | Except.error _, Except.ok _ => isFalse (by intro h; cases h)

/-! ## Concrete fixtures used by witnesses and counterexamples -/

/-- A dispatch oracle that records nothing interesting. -/
def nullExec : ExecFn := fun _ _ => vnull

/-- A dispatch oracle whose `logic` results are `true`. -/
def branchExec : ExecFn := fun n _ =>
  if n.type == "logic" then vobj [("result", vbool true)] else vstr "ok"

/-- A two-node dependency cycle with no logic node. -/
def cycleNodes : List Node := [⟨"A", "noop", []⟩, ⟨"B", "noop", []⟩]
def cycleEdges : List Edge :=
  [⟨"e1", "A", "B", none⟩, ⟨"e2", "B", "A", none⟩]

/-- A two-node chain `A → B` with no logic node. -/
def linearNodes : List Node := [⟨"A", "noop", []⟩, ⟨"B", "noop", []⟩]
def linearEdges : List Edge := [⟨"e1", "A", "B", none⟩]

/-- Branching fixture: `S → L`, `L -true→ A`, `L -false→ B`. -/
def branchNodes : List Node :=
  [⟨"S", "input", []⟩, ⟨"L", "logic", []⟩, ⟨"A", "noop", []⟩, ⟨"B", "noop", []⟩]
def branchEdges : List Edge :=
  [⟨"e0", "S", "L", none⟩, ⟨"et", "L", "A", some "true"⟩,
   ⟨"ef", "L", "B", some "false"⟩]
def branchRunState : BranchState :=
  (executeBranchingWorkflow branchExec branchNodes branchEdges "S").getD ⟨[], []⟩

/-- Class-engine demo: input `1`, logic `2` (with true/false edges to `3` and
`4`); the logic branch prunes one of them, so only three of the four nodes
execute. -/
def demoExt : Ext := ⟨fun _ _ => GeminiOutcome.ok "gem", "T0"⟩
def demoNodes : List Node :=
  [⟨"1", "input", [("textValue", vstr "10")]⟩,
   ⟨"2", "logic",
     [("condition", vstr (bracedToken "input")), ("compareValue", vstr "10"),
      ("operator", vstr "equals")]⟩,
   ⟨"3", "noop", []⟩, ⟨"4", "noop", []⟩]
def demoEdges : List Edge :=
  [⟨"a", "1", "2", none⟩, ⟨"b", "2", "3", some "true"⟩,
   ⟨"c", "2", "4", some "false"⟩]
def demoRunState : ChainState :=
  (executeWithBranchingW demoExt demoNodes demoEdges "1").getD
    ⟨[], [], emptyWContext⟩

/-! ## Association-list lemmas -/

theorem objGet_cons (p : String × Val) (l : List (String × Val)) (k : String) :
    objGet (p :: l) k = if p.1 == k then p.2 else objGet l k := by
  by_cases h : p.1 == k <;> simp [objGet, List.find?_cons, h]

theorem objGet_append_right (l r : List (String × Val)) (k : String)
    (h : hasKey l k = false) : objGet (l ++ r) k = objGet r k := by
  induction l with
  | nil => rfl
  | cons p l ih =>
    simp only [hasKey, List.any_cons, Bool.or_eq_false_iff] at h
    rw [List.cons_append, objGet_cons, if_neg (by simp [h.1]), ih]
    simp [hasKey, h.2]

theorem objGet_append_left (l r : List (String × Val)) (k : String)
    (h : hasKey l k = true) : objGet (l ++ r) k = objGet l k := by
  induction l with
  | nil => simp [hasKey] at h
  | cons p l ih =>
    by_cases hp : p.1 == k
    · rw [List.cons_append, objGet_cons, if_pos hp, objGet_cons, if_pos hp]
    · simp only [hasKey, List.any_cons, hp, Bool.false_or] at h
      rw [List.cons_append, objGet_cons, if_neg (by simp_all), objGet_cons,
        if_neg (by simp_all)]
      exact ih h

theorem hasKey_append (l r : List (String × Val)) (k : String) :
    hasKey (l ++ r) k = (hasKey l k || hasKey r k) := by
  simp [hasKey, List.any_append]

theorem objGet_setKey_same (l : List (String × Val)) (k : String) (v : Val) :
    objGet (setKey l k v) k = v := by
  induction l with
  | nil => simp [setKey, objGet_cons, objGet]
  | cons p l ih =>
    by_cases hp : p.1 == k
    · simp [setKey, hp, objGet_cons]
    · simp [setKey, hp, objGet_cons, ih]

theorem objGet_setKey_other (l : List (String × Val)) (k k' : String) (v : Val)
    (h : k' ≠ k) : objGet (setKey l k v) k' = objGet l k' := by
  have hkk' : (k == k') = false := by simp [beq_eq_false_iff_ne]; exact fun hh => h hh.symm
  induction l with
  | nil => simp [setKey, objGet_cons, hkk', objGet]
  | cons p l ih =>
    by_cases hp : p.1 == k
    · have hpk : p.1 = k := by simpa using hp
      rw [setKey, if_pos hp, objGet_cons, objGet_cons, hpk, if_neg (by simp [hkk'])]
      simp [hkk']
    · rw [setKey, if_neg hp, objGet_cons, objGet_cons, ih]

theorem hasKey_setKey (l : List (String × Val)) (k k' : String) (v : Val) :
    hasKey (setKey l k v) k' = (hasKey l k' || k' == k) := by
  induction l with
  | nil => simp [setKey, hasKey, List.any_cons, BEq.comm]
  | cons p l ih =>
    by_cases hp : p.1 == k
    · have hpk : p.1 = k := by simpa using hp
      by_cases hq : k' == k
      · have : k' = k := by simpa using hq
        subst this
        simp [setKey, hp, hasKey, List.any_cons, hpk]
      · simp only [setKey, hp, ite_true, hasKey, List.any_cons]
        have hq2 : (k == k') = false := by
          cases hqq : k == k'
          · rfl
          · exact absurd (by simpa using BEq.symm hqq) (by simpa using hq)
        simp [hpk, hq2, hq]
    · have hp' : (p.1 == k) = false := by
        cases hpk : p.1 == k
        · rfl
        · exact absurd hpk hp
      simp only [setKey, hp', Bool.false_eq_true, ite_false, hasKey, List.any_cons]
      simp only [hasKey] at ih
      rw [ih]
      cases p.1 == k' <;> simp

/-! ## Injectivity of the decimal rendering of `Nat`, via a `digitsVal`
round trip (needed for the positional `input_<i>` keys of
`getNodeInputData`). -/

theorem digitsVal_append_single (l : List Char) (c : Char) :
    digitsVal (l ++ [c]) = digitsVal l * 10 + (c.toNat - '0'.toNat) := by
  simp [digitsVal, List.foldl_append]

theorem digitChar_val (d : Nat) (h : d < 10) :
    (Nat.digitChar d).toNat - '0'.toNat = d := by
  interval_cases d <;> rfl

theorem toDigitsCore_append_free (f n : Nat) (ds : List Char) :
    Nat.toDigitsCore 10 f n ds = Nat.toDigitsCore 10 f n [] ++ ds := by
  induction f generalizing n ds with
  | zero => simp [Nat.toDigitsCore]
  | succ f ih =>
    simp only [Nat.toDigitsCore]
    by_cases h : n / 10 = 0
    · simp [h]
    · rw [if_neg h, if_neg h, ih (n / 10) (Nat.digitChar (n % 10) :: ds),
        ih (n / 10) [Nat.digitChar (n % 10)], List.append_assoc,
        List.singleton_append]

theorem digitsVal_toDigitsCore (f n : Nat) (h : n < f) :
    digitsVal (Nat.toDigitsCore 10 f n []) = n := by
  induction f generalizing n with
  | zero => omega
  | succ f ih =>
    simp only [Nat.toDigitsCore]
    by_cases h0 : n / 10 = 0
    · have hn : n < 10 := by omega
      rw [if_pos h0]
      have hv : digitsVal [Nat.digitChar (n % 10)] =
          (Nat.digitChar (n % 10)).toNat - '0'.toNat := by
        simp [digitsVal]
      rw [hv, digitChar_val (n % 10) (by omega), Nat.mod_eq_of_lt hn]
    · have hge : 10 ≤ n := by
        by_contra hlt
        exact h0 (Nat.div_eq_of_lt (by omega))
      have hdivlt : n / 10 < f := by
        have h1 : n / 10 < n := Nat.div_lt_self (by omega) (by omega)
        omega
      rw [if_neg h0, toDigitsCore_append_free, digitsVal_append_single,
        ih (n / 10) hdivlt, digitChar_val (n % 10) (by omega)]
      omega

theorem digitsVal_toString (n : Nat) : digitsVal (toString n).data = n := by
  have h1 : (toString n).data = Nat.toDigits 10 n := rfl
  rw [h1]
  exact digitsVal_toDigitsCore (n + 1) n (Nat.lt_succ_self n)

theorem toString_nat_inj {m n : Nat} (h : toString m = toString n) : m = n := by
  have := congrArg (fun s => digitsVal s.data) h
  simpa [digitsVal_toString] using this

theorem inputKey_inj {m n : Nat}
    (h : "input_" ++ toString m = "input_" ++ toString n) : m = n := by
  have hd := congrArg String.data h
  simp only [String.data_append] at hd
  have := List.append_cancel_left hd
  exact toString_nat_inj (by
    have : (toString m).data = (toString n).data := this
    cases hm : toString m
    cases hn : toString n
    simp_all)

/-! ## The template scanner on a single well-formed token

For a body `p` that is nonempty, contains no `\x7d` and is its own trim, the
template `bracedToken p` consists of exactly one regex match, so either
`processTemplate` is the respective per-occurrence function applied to
`p`. -/

theorem takeWhile_append_all (l r : List Char)
    (h : ∀ c ∈ l, c ≠ '}') :
    (l ++ r).takeWhile (fun c => c ≠ '}') = l ++ r.takeWhile (fun c => c ≠ '}') :=
  List.takeWhile_append_of_pos (fun a ha => by simpa using h a ha)

theorem dropWhile_append_all (l r : List Char)
    (h : ∀ c ∈ l, c ≠ '}') :
    (l ++ r).dropWhile (fun c => c ≠ '}') = r.dropWhile (fun c => c ≠ '}') :=
  List.dropWhile_append_of_pos (fun a ha => by simpa using h a ha)

theorem string_mk_data (s : String) : String.mk s.data = s := rfl

theorem scanTmpl_body_token (f : String → String) (c : Char) (cs : List Char)
    (n : Nat) (h : ∀ x ∈ c :: cs, x ≠ '}') :
    scanTmpl f (n + 1) ('{' :: '{' :: ((c :: cs) ++ ['}', '}'])) =
      f (String.mk (c :: cs)) := by
  have htake : ((c :: cs) ++ ['}', '}']).takeWhile (fun x => x ≠ '}') = c :: cs := by
    rw [takeWhile_append_all _ _ h]
    simp [List.takeWhile_cons]
  have hdrop : ((c :: cs) ++ ['}', '}']).dropWhile (fun x => x ≠ '}') = ['}', '}'] := by
    rw [dropWhile_append_all _ _ h]
    simp [List.dropWhile_cons]
  have hnil : scanTmpl f n [] = "" := by cases n <;> rfl
  simp only [scanTmpl, htake, hdrop, hnil]
  simp

theorem scanTmpl_token (f : String → String) (p : String) (n : Nat)
    (hne : p.data ≠ []) (hnc : ∀ c ∈ p.data, c ≠ '}') :
    scanTmpl f (n + 1) ('{' :: '{' :: (p.data ++ ['}', '}'])) = f p := by
  cases hd : p.data with
  | nil => exact absurd hd hne
  | cons c cs =>
    rw [scanTmpl_body_token f c cs n (by rw [← hd]; exact hnc)]
    congr 1
    rw [← hd]

theorem bracedToken_data (p : String) :
    (bracedToken p).data = '{' :: '{' :: (p.data ++ ['}', '}']) := by
  show ("\x7b\x7b" ++ p ++ "\x7d\x7d").data = _
  rw [String.data_append, String.data_append]
  rfl

theorem processTemplate_token (ctx : List (String × Val)) (p : String)
    (hne : p.data ≠ []) (hnc : ∀ c ∈ p.data, c ≠ '}') :
    processTemplate (bracedToken p) ctx = processVarS ctx p := by
  unfold processTemplate
  rw [bracedToken_data]
  have hlen : ('{' :: '{' :: (p.data ++ ['}', '}'])).length = (p.data.length + 4) := by
    rw [List.length_cons, List.length_cons, List.length_append]
    simp only [List.length_cons, List.length_nil]
  rw [hlen]
  exact scanTmpl_token _ p (p.data.length + 4) hne hnc

theorem processTemplateW_token (vars : List (String × Val)) (p : String)
    (hne : p.data ≠ []) (hnc : ∀ c ∈ p.data, c ≠ '}') :
    processTemplateW vars (bracedToken p) = processVarW vars p := by
  unfold processTemplateW
  rw [bracedToken_data]
  have hlen : ('{' :: '{' :: (p.data ++ ['}', '}'])).length = (p.data.length + 4) := by
    rw [List.length_cons, List.length_cons, List.length_append]
    simp only [List.length_cons, List.length_nil]
  rw [hlen]
  exact scanTmpl_token _ p (p.data.length + 4) hne hnc

/-! ## Helper lemmas for the claims -/

theorem outputKey_ne_input (id : String) : id ++ ".output" ≠ "input" := by
  intro h
  have hd := congrArg String.data h
  rw [String.data_append] at hd
  have hl := congrArg List.length hd
  rw [List.length_append] at hl
  have h7 : (".output" : String).data.length = 7 := rfl
  have h5 : ("input" : String).data.length = 5 := rfl
  omega

theorem setNodeOutput_vars_outputKey (c : WContext) (id : String) (v : Val) :
    objGet (setNodeOutput c id v).vars (id ++ ".output") = v := by
  unfold setNodeOutput
  simp only
  rw [objGet_setKey_other _ _ _ _ (outputKey_ne_input id), objGet_setKey_same]

theorem setNodeOutput_vars_input (c : WContext) (id : String) (v : Val) :
    objGet (setNodeOutput c id v).vars "input" = v := by
  unfold setNodeOutput
  simp only
  rw [objGet_setKey_same]

/-! ## Claim theorems -/

/-- Claim C5: the condition evaluator is a pure total function with
`evaluate("10","5","greaterThan") = true`; the four numeric operators coerce
both sides to numbers and any NaN (`none`) side makes them `false` (so
`evaluate("abc","5","greaterThan") = false`); `contains` is a substring test
on the string coercions; and every unknown or non-string operator yields
`false` (the evaluator, being a match on values, never throws). -/
theorem claimC5 :
    evaluateCondition (vstr "10") (vstr "5") (vstr "greaterThan") = true ∧
    evaluateCondition (vstr "abc") (vstr "5") (vstr "greaterThan") = false ∧
    evaluateCondition (vstr "hello world") (vstr "world") (vstr "contains") = true ∧
    (∀ v c : Val, ∀ op : String,
      op ∈ (["greaterThan", "lessThan", "greaterThanOrEqual",
             "lessThanOrEqual"] : List String) →
      jsToNumber v = none ∨ jsToNumber c = none →
      evaluateCondition v c (vstr op) = false) ∧
    (∀ v c : Val, evaluateCondition v c (vstr "contains") =
      strIncludes (jsString v) (jsString c)) ∧
    (∀ v c op : Val,
      (∀ s, op = vstr s →
        s ∉ (["equals", "notEquals", "greaterThan", "lessThan",
              "greaterThanOrEqual", "lessThanOrEqual", "contains"] : List String)) →
      evaluateCondition v c op = false) := by
  have hnanCmp : ∀ (f : ℚ → ℚ → Bool) (v c : Val),
      jsToNumber v = none ∨ jsToNumber c = none → numericCompare f v c = false := by
    intro f v c hn
    unfold numericCompare
    rcases hn with h | h
    · rw [h]
    · rw [h]
      cases jsToNumber v <;> rfl
  refine ⟨by decide, by decide, by decide, ?_, ?_, ?_⟩
  · intro v c op hop hnan
    simp only [List.mem_cons, List.not_mem_nil, or_false] at hop
    rcases hop with h | h | h | h <;> subst h <;>
      simp only [evaluateCondition, strictEq] <;>
      simp [hnanCmp _ _ _ hnan]
  · intro v c
    rfl
  · intro v c op h
    cases op with
    | vstr s =>
      have hs := h s rfl
      simp only [List.mem_cons, List.not_mem_nil, or_false, not_or] at hs
      obtain ⟨h1, h2, h3, h4, h5, h6, h7⟩ := hs
      simp [evaluateCondition, strictEq, h1, h2, h3, h4, h5, h6, h7]
    | vundef => rfl
    | vnull => rfl
    | vbool b => rfl
    | vnum q => rfl
    | vobj fs => rfl

/-- Claim C5 witness: the parts of the claim with hypotheses, applied at
concrete inputs — a NaN comparison and an unknown operator. -/
theorem claimC5_witness :
    evaluateCondition (vstr "xyz") (vstr "3") (vstr "lessThan") = false ∧
    evaluateCondition (vstr "a") (vstr "b") (vstr "between") = false := by
  constructor
  · exact claimC5.2.2.2.1 (vstr "xyz") (vstr "3") "lessThan" (by decide)
      (Or.inl (by decide))
  · exact claimC5.2.2.2.2.2 (vstr "a") (vstr "b") (vstr "between")
      (by
        intro s hs
        injection hs with h
        subst h
        decide)

/-- Claim C6: with at least one `logic` node the engine picks the start node
by priority (first `input` node, else first `dataEntry` node, else the first
node with no incoming edge), and when none of the three exists the run is
reported as `success := false` with the "No starting node found" message. -/
theorem claimC6 (exec : ExecFn) (nodes : List Node) (edges : List Edge) :
    (∀ n, nodes.find? (fun n => n.type == "input") = some n →
      findStartingNode nodes edges = some n) ∧
    (nodes.find? (fun n => n.type == "input") = none →
      ∀ n, nodes.find? (fun n => n.type == "dataEntry") = some n →
      findStartingNode nodes edges = some n) ∧
    (nodes.find? (fun n => n.type == "input") = none →
      nodes.find? (fun n => n.type == "dataEntry") = none →
      findStartingNode nodes edges =
        nodes.find? (fun n => !(edges.any (fun e => e.target == n.id)))) ∧
    (nodes.any (fun n => n.type == "logic") = true →
      (∀ n ∈ nodes, n.type ≠ "input") →
      (∀ n ∈ nodes, n.type ≠ "dataEntry") →
      (∀ n ∈ nodes, ∃ e ∈ edges, e.target = n.id) →
      executeCurrentWorkflow exec nodes edges =
        some ⟨false, none, some noStartMsg⟩) := by
  refine ⟨?_, ?_, ?_, ?_⟩
  · intro n h
    unfold findStartingNode
    rw [h]
  · intro h1 n h2
    unfold findStartingNode
    rw [h1, h2]
  · intro h1 h2
    unfold findStartingNode
    rw [h1, h2]
  · intro hlogic hin hde hinc
    have h1 : nodes.find? (fun n => n.type == "input") = none := by
      rw [List.find?_eq_none]
      intro n hn
      simpa using hin n hn
    have h2 : nodes.find? (fun n => n.type == "dataEntry") = none := by
      rw [List.find?_eq_none]
      intro n hn
      simpa using hde n hn
    have h3 : nodes.find? (fun n => !(edges.any (fun e => e.target == n.id))) = none := by
      rw [List.find?_eq_none]
      intro n hn
      obtain ⟨e, he, het⟩ := hinc n hn
      simp only [Bool.not_eq_true', Bool.not_eq_true, Bool.not_not]
      have : edges.any (fun e => e.target == n.id) = true := by
        rw [List.any_eq_true]
        exact ⟨e, he, by simp [het]⟩
      simp [this]
    have hstart : findStartingNode nodes edges = none := by
      unfold findStartingNode
      rw [h1, h2, h3]
    unfold executeCurrentWorkflow
    rw [hlogic, hstart]
    rfl

/-- Claim C6 witness: one `logic` node with a self edge has neither an
`input` node, nor a `dataEntry` node, nor any node without incoming edges;
the run reports `success := false` with the "No starting node found"
message. -/
theorem claimC6_witness :
    executeCurrentWorkflow (fun _ _ => vnull) [⟨"L", "logic", []⟩]
      [⟨"e", "L", "L", none⟩] = some ⟨false, none, some noStartMsg⟩ := by
  exact (claimC6 (fun _ _ => vnull) [⟨"L", "logic", []⟩] [⟨"e", "L", "L", none⟩]).2.2.2
    (by decide) (by decide) (by decide)
    (by
      intro n hn
      simp only [List.mem_singleton] at hn
      subst hn
      exact ⟨⟨"e", "L", "L", none⟩, List.mem_singleton.mpr rfl, rfl⟩)

/-- Claim C8: the `WorkflowExecutor` context is mutated monotonically — no
key of `variables`, `nodeOutputs` or `globalData` is ever deleted by any run
operation; `setNodeOutput` records the output under `nodeOutputs[nodeId]`
and `variables["<nodeId>.output"]`; and `variables["input"]` always holds the
most recently produced node output (no node type calls `setGlobalVariable`
with key `"input"`). -/
theorem claimC8 :
    (∀ (c : WContext) (ops : List CtxOp) (k : String),
      (hasKey c.vars k = true → hasKey (runOps c ops).vars k = true) ∧
      (hasKey c.nodeOutputs k = true → hasKey (runOps c ops).nodeOutputs k = true) ∧
      (hasKey c.globalData k = true → hasKey (runOps c ops).globalData k = true)) ∧
    (∀ (c : WContext) (id : String) (v : Val),
      objGet (setNodeOutput c id v).nodeOutputs id = v ∧
      objGet (setNodeOutput c id v).vars (id ++ ".output") = v ∧
      objGet (setNodeOutput c id v).vars "input" = v) ∧
    (∀ (c : WContext) (ops : List CtxOp),
      (∀ k v, CtxOp.setGlob k v ∈ ops → k ≠ "input") →
      objGet (runOps c ops).vars "input" = lastOut ops (objGet c.vars "input")) := by
  have hmono : ∀ (c : WContext) (op : CtxOp) (k : String),
      (hasKey c.vars k = true → hasKey (applyOp c op).vars k = true) ∧
      (hasKey c.nodeOutputs k = true → hasKey (applyOp c op).nodeOutputs k = true) ∧
      (hasKey c.globalData k = true → hasKey (applyOp c op).globalData k = true) := by
    intro c op k
    cases op with
    | setOut id v =>
      refine ⟨?_, ?_, ?_⟩
      · intro h
        simp only [applyOp, setNodeOutput, hasKey_setKey, h, Bool.true_or]
      · intro h
        simp only [applyOp, setNodeOutput, hasKey_setKey, h, Bool.true_or]
      · intro h
        simpa [applyOp, setNodeOutput] using h
    | setGlob kk v =>
      refine ⟨?_, ?_, ?_⟩
      · intro h
        simp only [applyOp, setGlobalVariable, hasKey_setKey, h, Bool.true_or]
      · intro h
        simpa [applyOp, setGlobalVariable] using h
      · intro h
        simp only [applyOp, setGlobalVariable, hasKey_setKey, h, Bool.true_or]
  refine ⟨?_, ?_, ?_⟩
  · intro c ops
    induction ops generalizing c with
    | nil => intro k; exact ⟨id, id, id⟩
    | cons op ops ih =>
      intro k
      have h1 := hmono c op k
      have h2 := ih (applyOp c op) k
      exact ⟨fun h => h2.1 (h1.1 h), fun h => h2.2.1 (h1.2.1 h),
        fun h => h2.2.2 (h1.2.2 h)⟩
  · intro c id v
    refine ⟨?_, setNodeOutput_vars_outputKey c id v, setNodeOutput_vars_input c id v⟩
    unfold setNodeOutput
    simp only
    rw [objGet_setKey_same]
  · intro c ops
    induction ops generalizing c with
    | nil => intro _; rfl
    | cons op ops ih =>
      intro h
      cases op with
      | setOut id v =>
        have : objGet (applyOp c (CtxOp.setOut id v)).vars "input" = v :=
          setNodeOutput_vars_input c id v
        rw [show runOps c (CtxOp.setOut id v :: ops) = runOps (applyOp c (CtxOp.setOut id v)) ops from rfl]
        rw [ih _ (fun k w hk => h k w (List.mem_cons_of_mem _ hk)), this]
        rfl
      | setGlob kk v =>
        have hkk : kk ≠ "input" := h kk v (List.mem_cons_self _ _)
        have : objGet (applyOp c (CtxOp.setGlob kk v)).vars "input" =
            objGet c.vars "input" := by
          simp only [applyOp, setGlobalVariable]
          exact objGet_setKey_other _ _ _ _ (fun hh => hkk hh.symm)
        rw [show runOps c (CtxOp.setGlob kk v :: ops) = runOps (applyOp c (CtxOp.setGlob kk v)) ops from rfl]
        rw [ih _ (fun k w hk => h k w (List.mem_cons_of_mem _ hk)), this]
        rfl

/-- Claim C8 witness: a concrete run of two node outputs and a global
variable; keys persist, the records are present, and `variables["input"]`
tracks the last output. -/
theorem claimC8_witness :
    objGet (runOps emptyWContext
      [CtxOp.setOut "1" (vstr "a"), CtxOp.setGlob "g" (vnum 7),
       CtxOp.setOut "2" (vstr "b")]).vars "input" =
      lastOut [CtxOp.setOut "1" (vstr "a"), CtxOp.setGlob "g" (vnum 7),
        CtxOp.setOut "2" (vstr "b")] (objGet emptyWContext.vars "input") ∧
    hasKey (runOps emptyWContext
      [CtxOp.setOut "1" (vstr "a"), CtxOp.setGlob "g" (vnum 7),
       CtxOp.setOut "2" (vstr "b")]).vars "1.output" = true := by
  constructor
  · exact claimC8.2.2 emptyWContext _
      (by intro k v hk; simp at hk; rcases hk with ⟨h1, _⟩; rw [h1]; decide)
  · decide

/-- Claim C3: a placeholder whose trimmed path is not an exact key, is not
dot-resolvable and triggers neither the legacy nor the `node_` remapping is
substituted back literally by both resolvers — no error, no blanking — and
resolving the result again returns the same token (idempotence).  The
standalone resolver's context is `ctx` (the results `Map`), the class
resolver's is `vars` (the executor's `variables`); `p` is assumed trimmed,
nonempty and `\x7d`-free so that `bracedToken p` is one regex match. -/
theorem claimC3 (ctx vars : List (String × Val)) (p : String)
    (hne : p.data ≠ []) (hnc : ∀ c ∈ p.data, c ≠ '}') (htrim : strTrim p = p)
    (hleg : strIncludes p legacyId = false)
    (hs_exact : objGet ctx p = vundef)
    (hs_dot : dotPartS ctx p = none)
    (hm_node : strStartsWith p "node_" = false)
    (hm_var : getVariableW vars p = vundef) :
    processTemplate (bracedToken p) ctx = bracedToken p ∧
    processTemplate (processTemplate (bracedToken p) ctx) ctx = bracedToken p ∧
    processTemplateW vars (bracedToken p) = bracedToken p ∧
    processTemplateW vars (processTemplateW vars (bracedToken p)) = bracedToken p := by
  have h1 : legacyPartS ctx p = none := by
    unfold legacyPartS
    rw [hleg]
    rfl
  have h3 : directPartS ctx p = none := by
    unfold directPartS
    rw [hs_exact]
  have hA : processTemplate (bracedToken p) ctx = bracedToken p := by
    rw [processTemplate_token ctx p hne hnc]
    unfold processVarS
    simp only [htrim, h1, hs_dot, h3]
    rfl
  have hC : processTemplateW vars (bracedToken p) = bracedToken p := by
    rw [processTemplateW_token vars p hne hnc]
    unfold processVarW
    simp only [htrim, hleg, hm_node, Bool.false_eq_true, if_false, hm_var]
    simp [bracedToken]
  exact ⟨hA, by rw [hA, hA], hC, by rw [hC, hC]⟩

/-- Claim C3 witness: the path "missing" resolves to its own literal token in
both resolvers and is a fixed point of resolution. -/
theorem claimC3_witness :
    processTemplate (bracedToken "missing") [("a", vstr "1")] =
      bracedToken "missing" ∧
    processTemplate
      (processTemplate (bracedToken "missing") [("a", vstr "1")])
      [("a", vstr "1")] = bracedToken "missing" ∧
    processTemplateW [("a", vstr "1")] (bracedToken "missing") =
      bracedToken "missing" ∧
    processTemplateW [("a", vstr "1")]
      (processTemplateW [("a", vstr "1")] (bracedToken "missing")) =
      bracedToken "missing" :=
  claimC3 [("a", vstr "1")] [("a", vstr "1")] "missing"
    (by decide) (by decide) (by decide) (by decide) (by decide) (by decide)
    (by decide) (by decide)

/-- Claim C4 counterexample: the claim — every path present as an exact key
stringifies (strings as-is, objects JSON-stringified, primitives natural) —
fails as stated.  In the class resolver a `node_`-prefixed exact key is
remapped before lookup, so the `node_1` token does not resolve to the value
stored under the exact key `"node_1"`; and an object-valued key yields
`String(value) = "[object Object]"`, not its JSON form. -/
theorem claimC4_counterexample :
    (processTemplateW [("node_1", vstr "Y")] (bracedToken "node_1") =
        bracedToken "node_1" ∧
      bracedToken "node_1" ≠ "Y") ∧
    (processTemplateW [("k", vobj [("a", vstr "b")])] (bracedToken "k") =
        "[object Object]" ∧
      "[object Object]" ≠ jsonStringify (vobj [("a", vstr "b")])) := by
  refine ⟨⟨by decide, by decide⟩, ⟨by decide, ?_⟩⟩
  decide

/-- Claim C4 as amended: for a trimmed, dot-free path that is present as an
exact key, does not contain the legacy id and does not start with `node_`,
the standalone resolver substitutes string values unchanged and
`JSON.stringify`s every other value (numbers and booleans thus print in
natural form), while the class resolver substitutes `String(value)` —
strings unchanged, primitives in natural form, objects as
"[object Object]". -/
theorem claimC4 (ctx vars : List (String × Val)) (p : String) (v : Val)
    (hne : p.data ≠ []) (hnc : ∀ c ∈ p.data, c ≠ '}') (htrim : strTrim p = p)
    (hdot : p.data.contains '.' = false)
    (hleg : strIncludes p legacyId = false)
    (hnode : strStartsWith p "node_" = false)
    (hs : objGet ctx p = v)
    (hm : vars.any (fun q => q.1 == p) = true) (hmv : objGet vars p = v)
    (hv : v ≠ vundef) :
    processTemplate (bracedToken p) ctx = stringifyS v ∧
    processTemplateW vars (bracedToken p) = jsString v := by
  have h1 : legacyPartS ctx p = none := by
    unfold legacyPartS
    rw [hleg]
    rfl
  have h2 : dotPartS ctx p = none := by
    unfold dotPartS
    rw [hdot]
    rfl
  have h3 : directPartS ctx p = some (stringifyS v) := by
    unfold directPartS
    rw [hs]
    cases v with
    | vundef => exact absurd rfl hv
    | vnull => rfl
    | vbool b => rfl
    | vnum q => rfl
    | vstr s => rfl
    | vobj fs => rfl
  constructor
  · rw [processTemplate_token ctx p hne hnc]
    unfold processVarS
    simp only [htrim, h1, h2, h3]
    rfl
  · rw [processTemplateW_token vars p hne hnc]
    unfold processVarW
    simp only [htrim, hleg, hnode, Bool.false_eq_true, if_false]
    unfold getVariableW
    rw [if_pos hm, hmv, if_pos hv]

/-- Claim C4 witness: a string-valued exact key passes through unchanged in
both resolvers. -/
theorem claimC4_witness :
    processTemplate (bracedToken "k") [("k", vstr "Y")] = "Y" ∧
    processTemplateW [("k", vstr "Y")] (bracedToken "k") = "Y" :=
  claimC4 [("k", vstr "Y")] [("k", vstr "Y")] "k" (vstr "Y")
    (by decide) (by decide) (by decide) (by decide) (by decide) (by decide)
    (by decide) (by decide) (by decide) (by decide)

/-- Claim C10 counterexample: the claim quantifies over every path beginning
with `node_`, but a `node_`-prefixed path containing the legacy identifier is
intercepted by the legacy branch first: the code replaces the legacy id by
"1" and looks up `"node_1"`, returning its value — not the claim's rewritten
`"input_1753600591013_e9ksojj74.output"` lookup, which is undefined and would
have substituted the literal token back. -/
theorem claimC10_counterexample :
    strStartsWith "node_input_1753600591013_e9ksojj74" "node_" = true ∧
    getVariableW [("node_1", vstr "X")]
      "input_1753600591013_e9ksojj74.output" = vundef ∧
    processTemplateW [("node_1", vstr "X")]
      (bracedToken "node_input_1753600591013_e9ksojj74") = "X" ∧
    ("X" : String) ≠ bracedToken "node_input_1753600591013_e9ksojj74" := by
  refine ⟨by decide, by decide, by decide, by decide⟩

/-- Claim C10 as amended: every trimmed placeholder path that begins with
`node_` and does not contain the legacy identifier is rewritten before
lookup — `node_<k>` becomes the id `<k>` joined with the path's second dot
segment (defaulting to `output`) — and the rewritten variable is resolved
through `getVariable`, with the original literal token substituted back when
the rewritten variable is undefined. -/
theorem claimC10 (vars : List (String × Val)) (p : String)
    (hne : p.data ≠ []) (hnc : ∀ c ∈ p.data, c ≠ '}') (htrim : strTrim p = p)
    (hleg : strIncludes p legacyId = false)
    (hnode : strStartsWith p "node_" = true) :
    processTemplateW vars (bracedToken p) =
      (let nodeNumber := (strSplitChar '.' (replaceFirst p "node_" "")).headD ""
       let property :=
         if p.data.contains '.' then ((strSplitChar '.' p).drop 1).headD ""
         else "output"
       let value := getVariableW vars (nodeNumber ++ "." ++ property)
       if value ≠ vundef then jsString value else bracedToken p) := by
  rw [processTemplateW_token vars p hne hnc]
  unfold processVarW
  simp only [htrim, hleg, Bool.false_eq_true, if_false, hnode, if_true]

/-- Claim C10 witness: the `node_1.output` token resolves to the value of the
variable `"1.output"`. -/
theorem claimC10_witness :
    processTemplateW [("1.output", vstr "hello")] (bracedToken "node_1.output") =
      "hello" := by
  rw [claimC10 [("1.output", vstr "hello")] "node_1.output"
    (by decide) (by decide) (by decide) (by decide) (by decide)]
  decide

/-! ## The combined multi-input object of `getNodeInputData` -/

theorem toString_nat_ne_nil (m : Nat) : (toString m).data ≠ [] := by
  intro h
  have hv := digitsVal_toString m
  rw [h] at hv
  have hm : m = 0 := by simpa [digitsVal] using hv.symm
  subst hm
  exact absurd h (by decide)

theorem short_ne_inputKey (s : String) (m : Nat) (h : s.data.length < 7) :
    s ≠ "input_" ++ toString m := by
  intro he
  have hd := congrArg String.data he
  rw [String.data_append] at hd
  have hl := congrArg List.length hd
  rw [List.length_append] at hl
  have h6 : ("input_" : String).data.length = 6 := rfl
  have hne := toString_nat_ne_nil m
  have h1 : 1 ≤ (toString m).data.length := by
    cases hh : (toString m).data
    · exact absurd hh hne
    · simp
  omega

theorem foldCombined_untouched (results : List (String × Val)) :
    ∀ (es : List Edge) (i : Nat) (acc : List (String × Val)) (k : String),
    (∀ e ∈ es, e.source ≠ k) →
    (∀ m, i ≤ m → "input_" ++ toString m ≠ k) →
    objGet ((List.enumFrom i es).foldl (combineStep results) acc) k =
      objGet acc k := by
  intro es
  induction es with
  | nil => intro i acc k _ _; rfl
  | cons e es ih =>
    intro i acc k hsrc hinp
    show objGet ((List.enumFrom (i + 1) es).foldl (combineStep results)
      (combineStep results acc (i, e))) k = _
    rw [ih (i + 1) _ k (fun x hx => hsrc x (List.mem_cons_of_mem e hx))
      (fun m hm => hinp m (by omega))]
    unfold combineStep
    rw [objGet_setKey_other _ _ _ _
        (fun hh => hsrc e (List.mem_cons_self e es) hh.symm),
      objGet_setKey_other _ _ _ _ (fun hh => hinp i (le_refl i) hh.symm)]

theorem foldCombined_source (results : List (String × Val)) :
    ∀ (es : List Edge) (i : Nat) (acc : List (String × Val)) (k : String),
    (∀ m, i ≤ m → "input_" ++ toString m ≠ k) →
    (∃ e ∈ es, e.source = k) →
    objGet ((List.enumFrom i es).foldl (combineStep results) acc) k =
      objGet results k := by
  intro es
  induction es with
  | nil => intro i acc k _ hex; simp at hex
  | cons e es ih =>
    intro i acc k hinp hex
    show objGet ((List.enumFrom (i + 1) es).foldl (combineStep results)
      (combineStep results acc (i, e))) k = _
    by_cases htail : ∃ x ∈ es, x.source = k
    · exact ih (i + 1) _ k (fun m hm => hinp m (by omega)) htail
    · have hek : e.source = k := by
        rcases hex with ⟨x, hx, hxk⟩
        rcases List.mem_cons.mp hx with rfl | hx'
        · exact hxk
        · exact absurd ⟨x, hx', hxk⟩ htail
      rw [foldCombined_untouched results es (i + 1) _ k
        (fun x hx hxk => htail ⟨x, hx, hxk⟩) (fun m hm => hinp m (by omega))]
      unfold combineStep
      rw [hek, objGet_setKey_same]

theorem foldCombined_inputKey (results : List (String × Val)) :
    ∀ (es : List Edge) (i : Nat) (acc : List (String × Val)),
    (∀ e ∈ es, ∀ m : Nat, e.source ≠ "input_" ++ toString m) →
    ∀ p ∈ List.enumFrom i es,
    objGet ((List.enumFrom i es).foldl (combineStep results) acc)
      ("input_" ++ toString p.1) = objGet results p.2.source := by
  intro es
  induction es with
  | nil => intro i acc _ p hp; simp [List.enumFrom] at hp
  | cons e es ih =>
    intro i acc hsrc p hp
    have hp' : p = (i, e) ∨ p ∈ List.enumFrom (i + 1) es := by
      simpa [List.enumFrom] using hp
    show objGet ((List.enumFrom (i + 1) es).foldl (combineStep results)
      (combineStep results acc (i, e))) ("input_" ++ toString p.1) = _
    rcases hp' with rfl | hmem
    · rw [foldCombined_untouched results es (i + 1) _ _
        (fun x hx => (hsrc x (List.mem_cons_of_mem e hx) i))
        (fun m hm heq =>
          (by omega : ¬ m = i) (inputKey_inj heq))]
      unfold combineStep
      show objGet (setKey (setKey acc ("input_" ++ toString i)
          (objGet results e.source)) e.source (objGet results e.source))
        ("input_" ++ toString i) = objGet results e.source
      rw [objGet_setKey_other _ _ _ _
          (fun hh => hsrc e (List.mem_cons_self e es) i hh.symm),
        objGet_setKey_same]
    · exact ih (i + 1) _ (fun x hx => hsrc x (List.mem_cons_of_mem e hx)) p hmem

/-- Claim C7: the input handed to dispatch is determined by the node's
incoming edges — with none it is the run's initial input; with exactly one
it is that predecessor's recorded (truthy) output passed through; with two
or more it is the combined object holding each predecessor's output both
under the positional `input_<i>` keys (in edge order) and under the
predecessor's id.  (The positional clauses assume no predecessor id itself
looks like `input_<m>`, which would collide in the combined object.) -/
theorem claimC7 (edges : List Edge) (results : List (String × Val))
    (inputData : Val) (nodeId : String) :
    (edges.filter (fun e => e.target == nodeId) = [] →
      effectiveInputData nodeId edges results inputData = inputData) ∧
    (∀ e, edges.filter (fun e => e.target == nodeId) = [e] →
      ∀ v, objGet results e.source = v → v.truthy = true →
      effectiveInputData nodeId edges results inputData = v) ∧
    (∀ es, edges.filter (fun e => e.target == nodeId) = es → 2 ≤ es.length →
      (∀ e ∈ es, ∀ m : Nat, e.source ≠ "input_" ++ toString m) →
      effectiveInputData nodeId edges results inputData =
        vobj (combinedInputOf es results) ∧
      (∀ p ∈ es.enum, objGet (combinedInputOf es results)
        ("input_" ++ toString p.1) = objGet results p.2.source) ∧
      (∀ e ∈ es, objGet (combinedInputOf es results) e.source =
        objGet results e.source)) := by
  refine ⟨?_, ?_, ?_⟩
  · intro hf
    unfold effectiveInputData getNodeInputData
    simp only [hf]
    rfl
  · intro e hf v hv htruthy
    unfold effectiveInputData getNodeInputData
    simp only [hf, hv]
    unfold Val.jsOr
    rw [if_pos htruthy]
  · intro es hf hlen hsrc
    obtain ⟨a, b, rest, hes⟩ : ∃ a b rest, es = a :: b :: rest := by
      cases es with
      | nil => simp at hlen
      | cons a t =>
        cases t with
        | nil => simp at hlen
        | cons b rest => exact ⟨a, b, rest, rfl⟩
    refine ⟨?_, ?_, ?_⟩
    · unfold effectiveInputData getNodeInputData
      simp only [hf, hes]
      rfl
    · intro p hp
      exact foldCombined_inputKey results es 0 [] hsrc p hp
    · intro e he
      exact foldCombined_source results es 0 [] e.source
        (fun m _ heq => hsrc e he m heq.symm) ⟨e, he, rfl⟩

/-- Claim C7 witness: a node with incoming edges from `A` and `B` receives
the combined object, with both positional and id keys present. -/
theorem claimC7_witness :
    effectiveInputData "N" [⟨"e1", "A", "N", none⟩, ⟨"e2", "B", "N", none⟩]
        [("A", vstr "x"), ("B", vstr "y")] (vobj []) =
      vobj (combinedInputOf [⟨"e1", "A", "N", none⟩, ⟨"e2", "B", "N", none⟩]
        [("A", vstr "x"), ("B", vstr "y")]) ∧
    objGet (combinedInputOf [⟨"e1", "A", "N", none⟩, ⟨"e2", "B", "N", none⟩]
      [("A", vstr "x"), ("B", vstr "y")]) ("input_" ++ toString 0) = vstr "x" ∧
    objGet (combinedInputOf [⟨"e1", "A", "N", none⟩, ⟨"e2", "B", "N", none⟩]
      [("A", vstr "x"), ("B", vstr "y")]) "B" = vstr "y" := by
  have h := (claimC7 [⟨"e1", "A", "N", none⟩, ⟨"e2", "B", "N", none⟩]
    [("A", vstr "x"), ("B", vstr "y")] (vobj []) "N").2.2
    [⟨"e1", "A", "N", none⟩, ⟨"e2", "B", "N", none⟩] (by decide) (by decide)
    (by
      intro e he m
      have : e.source = "A" ∨ e.source = "B" := by
        rcases List.mem_cons.mp he with rfl | he'
        · exact Or.inl rfl
        · rcases List.mem_cons.mp he' with rfl | he''
          · exact Or.inr rfl
          · simp at he''
      rcases this with h1 | h1 <;> rw [h1] <;>
        exact short_ne_inputKey _ m (by decide))
  refine ⟨h.1, ?_, ?_⟩
  · have := h.2.1 (0, ⟨"e1", "A", "N", none⟩) (by decide)
    simpa using this
  · have := h.2.2 ⟨"e2", "B", "N", none⟩ (by decide)
    simpa using this

/-- Claim C9: for every successful run of the class-engine `POST` handler the
`executedNodes` field of the response equals the length of the submitted
nodes array — not the number of nodes the traversal actually executed.  The
demo graph shows the difference: its logic node prunes a branch so only 3 of
the 4 nodes execute, yet the response reports 4. -/
theorem claimC9 :
    (∀ (ext : Ext) (nodes : List Node) (edges : List Edge) (st : ChainState),
      executeWorkflowW ext nodes edges = some (Except.ok st) →
      postExecuteWorkflow ext nodes edges =
        some (PostResponse.ok st.wctx nodes.length edges.length)) ∧
    ((executeWithBranchingW demoExt demoNodes demoEdges "1").map
      (fun st => st.executedNodes.length) = some 3 ∧
     demoNodes.length = 4 ∧
     (postExecuteWorkflow demoExt demoNodes demoEdges).map
       (fun r => match r with
         | PostResponse.ok _ en te => (en, te)
         | PostResponse.err _ _ => (0, 0)) = some (4, 3)) := by
  constructor
  · intro ext nodes edges st h
    unfold postExecuteWorkflow
    rw [h]
  · exact ⟨by decide, by decide, by decide⟩

/-- Claim C9 witness: the general component applied to the demo run. -/
theorem claimC9_witness :
    postExecuteWorkflow demoExt demoNodes demoEdges =
      some (PostResponse.ok demoRunState.wctx 4 3) := by
  have hrun : executeWorkflowW demoExt demoNodes demoEdges =
      some (Except.ok demoRunState) := by decide
  have h := claimC9.1 demoExt demoNodes demoEdges demoRunState hrun
  simpa using h

/-! ## List and measure helper lemmas for the traversal proofs -/

theorem contains_true_iff (l : List String) (x : String) :
    l.contains x = true ↔ x ∈ l := by
  rw [List.contains_iff_exists_mem_beq]
  constructor
  · rintro ⟨b, hb, hab⟩
    have hxb : x = b := by simpa using hab
    rwa [hxb]
  · intro h
    exact ⟨x, h, by simp⟩

theorem contains_false_iff (l : List String) (x : String) :
    l.contains x = false ↔ x ∉ l := by
  rw [← contains_true_iff]
  cases l.contains x <;> simp

theorem length_filter_mono {α : Type} (p q : α → Bool) :
    ∀ (l : List α), (∀ x ∈ l, q x = true → p x = true) →
    (l.filter q).length ≤ (l.filter p).length := by
  intro l
  induction l with
  | nil => intro _; simp
  | cons a l ih =>
    intro h
    have ih' := ih (fun x hx => h x (List.mem_cons_of_mem a hx))
    by_cases hq : q a = true
    · rw [List.filter_cons_of_pos hq,
        List.filter_cons_of_pos (h a (List.mem_cons_self a l) hq)]
      simpa using ih'
    · rw [List.filter_cons_of_neg (by simpa using hq)]
      by_cases hp : p a = true
      · rw [List.filter_cons_of_pos hp]
        exact Nat.le_succ_of_le ih'
      · rw [List.filter_cons_of_neg (by simpa using hp)]
        exact ih'

theorem length_filter_lt {α : Type} (p q : α → Bool) :
    ∀ (l : List α) (x : α), l.Nodup → x ∈ l → p x = true → q x = false →
    (∀ y ∈ l, q y = true → p y = true) →
    (l.filter q).length < (l.filter p).length := by
  intro l
  induction l with
  | nil => intro x _ hx; cases hx
  | cons a l ih =>
    intro x hnd hx hpx hqx h
    rcases List.mem_cons.mp hx with rfl | hxl
    · rw [List.filter_cons_of_pos hpx, List.filter_cons_of_neg (by simp [hqx])]
      have hmono := length_filter_mono p q l
        (fun y hy => h y (List.mem_cons_of_mem x hy))
      simp only [List.length_cons]
      omega
    · have hnd' := (List.nodup_cons.mp hnd).2
      have ihlt := ih x hnd' hxl hpx hqx
        (fun y hy => h y (List.mem_cons_of_mem a hy))
      by_cases hq : q a = true
      · rw [List.filter_cons_of_pos hq,
          List.filter_cons_of_pos (h a (List.mem_cons_self a l) hq)]
        simp only [List.length_cons]
        omega
      · rw [List.filter_cons_of_neg (by simpa using hq)]
        by_cases hp : p a = true
        · rw [List.filter_cons_of_pos hp]
          exact Nat.lt_succ_of_lt ihlt
        · rw [List.filter_cons_of_neg (by simpa using hp)]
          exact ihlt

theorem freshL_mono (nodes : List Node) (v : List String) (d : List String) :
    freshL nodes (v ++ d) ≤ freshL nodes v := by
  apply length_filter_mono
  intro x _ hq
  cases hc : v.contains x
  · rfl
  · have hmem : x ∈ v := (contains_true_iff v x).mp hc
    have : (v ++ d).contains x = true :=
      (contains_true_iff _ x).mpr (List.mem_append_left d hmem)
    rw [this] at hq
    simp at hq

theorem freshL_strict (nodes : List Node) (v : List String) (nodeId : String)
    (hnode : nodeId ∈ nodes.map Node.id) (hfresh : v.contains nodeId = false) :
    freshL nodes (v ++ [nodeId]) < freshL nodes v := by
  apply length_filter_lt _ _ _ nodeId (List.nodup_dedup _)
    (List.mem_dedup.mpr hnode)
  · rw [hfresh]
    rfl
  · have : (v ++ [nodeId]).contains nodeId = true :=
      (contains_true_iff _ _).mpr (List.mem_append_right v (List.mem_singleton.mpr rfl))
    rw [this]
    rfl
  · intro y _ hq
    cases hc : v.contains y
    · rfl
    · have hmem : y ∈ v := (contains_true_iff v y).mp hc
      have : (v ++ [nodeId]).contains y = true :=
        (contains_true_iff _ y).mpr (List.mem_append_left _ hmem)
      rw [this] at hq
      simp at hq

theorem resLookup_append_left (l d : List (String × Val)) (k : String) (r : Val)
    (h : resLookup l k = some r) : resLookup (l ++ d) k = some r := by
  unfold resLookup at h ⊢
  rw [List.find?_append]
  cases hf : l.find? (fun p => p.1 == k) with
  | none => rw [hf] at h; simp at h
  | some p =>
    rw [hf] at h
    simpa [Option.or] using h

theorem resLookup_none_iff (l : List (String × Val)) (k : String) :
    resLookup l k = none ↔ k ∉ l.map Prod.fst := by
  unfold resLookup
  simp only [Option.map_eq_none', List.find?_eq_none, beq_iff_eq, List.mem_map]
  constructor
  · rintro h ⟨p, hp, hpk⟩
    exact h p hp hpk
  · intro h p hp hpk
    exact h ⟨p, hp, hpk⟩

theorem resLookup_append_self (l : List (String × Val)) (k : String) (v : Val)
    (h : k ∉ l.map Prod.fst) : resLookup (l ++ [(k, v)]) k = some v := by
  unfold resLookup
  rw [List.find?_append]
  have h1 : l.find? (fun p => p.1 == k) = none := by
    rw [List.find?_eq_none]
    intro p hp hpk
    exact h (List.mem_map.mpr ⟨p, hp, by simpa using hpk⟩)
  rw [h1]
  simp [Option.or, List.find?]

theorem fstep_mono (nodes : List Node) (edges : List Edge)
    (res d : List (String × Val)) (u v : String)
    (h : FStep nodes edges res u v) : FStep nodes edges (res ++ d) u v := by
  obtain ⟨e, he, hs, ht, hcond⟩ := h
  refine ⟨e, he, hs, ht, fun node hfind htype => ?_⟩
  obtain ⟨r, hr, hh⟩ := hcond node hfind htype
  exact ⟨r, resLookup_append_left _ _ _ _ hr, hh⟩

theorem rtg_fstep_mono (nodes : List Node) (edges : List Edge)
    (res d : List (String × Val)) (a b : String)
    (h : Relation.ReflTransGen (FStep nodes edges res) a b) :
    Relation.ReflTransGen (FStep nodes edges (res ++ d)) a b :=
  Relation.ReflTransGen.mono (fun _ _ hs => fstep_mono nodes edges res d _ _ hs) h

theorem runTargets_cons (f : String → BranchState → Option BranchState)
    (e : Edge) (es : List Edge) (st : BranchState) :
    runTargets f (e :: es) st =
      match f e.target st with
      | none => none
      | some st' => runTargets f es st' := rfl

theorem targetsP_of_chainP (exec : ExecFn) (nodes : List Node)
    (edges : List Edge) (fuel : Nat) (hch : ChainP exec nodes edges fuel) :
    TargetsP exec nodes edges fuel := by
  intro es
  induction es with
  | nil =>
    intro st hk hf
    exact ⟨st, rfl, hk, ⟨[], by simp⟩, ⟨[], by simp⟩, fun x hx => Or.inl hx⟩
  | cons e es ih =>
    intro st hk hf
    obtain ⟨stA, hA, hkA, ⟨dv, hdv⟩, ⟨dr, hdr⟩, hsound⟩ := hch e.target st hk hf
    have hfA : freshL nodes stA.visited < fuel := by
      rw [hdv]
      exact lt_of_le_of_lt (freshL_mono nodes st.visited dv) hf
    obtain ⟨stB, hB, hkB, ⟨dv2, hdv2⟩, ⟨dr2, hdr2⟩, hsound2⟩ := ih stA hkA hfA
    refine ⟨stB, ?_, hkB,
      ⟨dv ++ dv2, by rw [hdv2, hdv, List.append_assoc]⟩,
      ⟨dr ++ dr2, by rw [hdr2, hdr, List.append_assoc]⟩, ?_⟩
    · rw [runTargets_cons, hA]
      exact hB
    · intro x hx
      rcases hsound2 x hx with hxA | ⟨e', he', hrtg⟩
      · rcases hsound x hxA with hxS | hrtg
        · exact Or.inl hxS
        · right
          refine ⟨e, List.mem_cons_self e es, ?_⟩
          rw [hdr2]
          exact rtg_fstep_mono nodes edges stA.results dr2 _ _ hrtg
      · exact Or.inr ⟨e', List.mem_cons_of_mem e he', hrtg⟩

theorem chainP_main (exec : ExecFn) (nodes : List Node) (edges : List Edge) :
    ∀ fuel, ChainP exec nodes edges fuel := by
  intro fuel
  induction fuel with
  | zero =>
    intro nodeId st hk hf
    exact absurd hf (Nat.not_lt_zero _)
  | succ fuel ih =>
    have htg : TargetsP exec nodes edges fuel :=
      targetsP_of_chainP exec nodes edges fuel ih
    intro nodeId st hk hf
    have hunfold : execChain exec nodes edges (fuel + 1) nodeId st =
        if st.visited.contains nodeId then some st
        else
          match nodes.find? (fun n => n.id == nodeId) with
          | none => some ⟨st.visited ++ [nodeId], st.results⟩
          | some node =>
            if node.type == "logic" then
              match (edges.filter (fun e => e.source == nodeId)).find?
                  (fun e => e.sourceHandle ==
                    some (if (logicResultField (exec node st.results)).truthy
                      then "true" else "false")) with
              | some te => execChain exec nodes edges fuel te.target
                  ⟨st.visited ++ [nodeId],
                    st.results ++ [(nodeId, exec node st.results)]⟩
              | none => some ⟨st.visited ++ [nodeId],
                  st.results ++ [(nodeId, exec node st.results)]⟩
            else
              runTargets (execChain exec nodes edges fuel)
                (edges.filter (fun e => e.source == nodeId))
                ⟨st.visited ++ [nodeId],
                  st.results ++ [(nodeId, exec node st.results)]⟩ := rfl
    by_cases hvis : st.visited.contains nodeId = true
    · refine ⟨st, ?_, hk, ⟨[], by simp⟩, ⟨[], by simp⟩, fun x hx => Or.inl hx⟩
      rw [hunfold, hvis, if_pos rfl]
    · have hvis' : st.visited.contains nodeId = false := by
        cases h : st.visited.contains nodeId
        · rfl
        · exact absurd h hvis
      have hnmem : nodeId ∉ st.visited := (contains_false_iff _ _).mp hvis'
      cases hfind : nodes.find? (fun n => n.id == nodeId) with
      | none =>
        refine ⟨⟨st.visited ++ [nodeId], st.results⟩, ?_, ?_, ⟨[nodeId], rfl⟩,
          ⟨[], by simp⟩, ?_⟩
        · rw [hunfold, hvis', if_neg Bool.false_ne_true, hfind]
        · intro k hkk
          exact List.mem_append_left _ (hk k hkk)
        · intro x hx
          rcases List.mem_append.mp hx with h | h
          · exact Or.inl h
          · right
            rw [List.mem_singleton.mp h]
      | some node =>
        have hmemnode : node ∈ nodes := List.mem_of_find?_eq_some hfind
        have hid : node.id = nodeId := by
          have := List.find?_some hfind
          simpa using this
        have hnodeid : nodeId ∈ nodes.map Node.id :=
          List.mem_map.mpr ⟨node, hmemnode, hid⟩
        have hkeys2 : KeysInv ⟨st.visited ++ [nodeId],
            st.results ++ [(nodeId, exec node st.results)]⟩ := by
          intro k hkk
          rw [List.map_append] at hkk
          rcases List.mem_append.mp hkk with h | h
          · exact List.mem_append_left _ (hk k h)
          · simp only [List.map_cons, List.map_nil, List.mem_singleton] at h
            rw [h]
            exact List.mem_append_right _ (List.mem_singleton.mpr rfl)
        have hf2 : freshL nodes (st.visited ++ [nodeId]) < fuel := by
          have hstrict := freshL_strict nodes st.visited nodeId hnodeid hvis'
          omega
        have hfreshkey : nodeId ∉ st.results.map Prod.fst :=
          fun hmem => hnmem (hk _ hmem)
        have hresL : resLookup (st.results ++ [(nodeId, exec node st.results)])
            nodeId = some (exec node st.results) :=
          resLookup_append_self _ _ _ hfreshkey
        by_cases hlog : (node.type == "logic") = true
        · cases hte : (edges.filter (fun e => e.source == nodeId)).find?
              (fun e => e.sourceHandle ==
                some (if (logicResultField (exec node st.results)).truthy
                  then "true" else "false")) with
          | some te =>
            obtain ⟨stF, hrunF, hkF, ⟨dv, hdv⟩, ⟨dr, hdr⟩, hsoundF⟩ :=
              ih te.target ⟨st.visited ++ [nodeId],
                st.results ++ [(nodeId, exec node st.results)]⟩ hkeys2 hf2
            refine ⟨stF, ?_, hkF,
              ⟨nodeId :: dv, by simpa [List.append_assoc] using hdv⟩,
              ⟨(nodeId, exec node st.results) :: dr,
                by simpa [List.append_assoc] using hdr⟩, ?_⟩
            · rw [hunfold, hvis', if_neg Bool.false_ne_true, hfind]
              show (if node.type == "logic" then _ else _) = some stF
              rw [hlog, if_pos rfl, hte]
              exact hrunF
            · intro x hx
              rcases hsoundF x hx with hx2 | hrtg
              · rcases List.mem_append.mp hx2 with h | h
                · exact Or.inl h
                · right
                  rw [List.mem_singleton.mp h]
              · right
                refine Relation.ReflTransGen.head ?_ hrtg
                have hteme := List.mem_of_find?_eq_some hte
                have htem := List.mem_filter.mp hteme
                have htes : te.source = nodeId := by simpa using htem.2
                have hteh := List.find?_some hte
                have hteh' : te.sourceHandle =
                    some (if (logicResultField (exec node st.results)).truthy
                      then "true" else "false") := by simpa using hteh
                refine ⟨te, htem.1, htes, rfl, ?_⟩
                intro node' hfind' htype'
                rw [hfind] at hfind'
                injection hfind' with hnn
                subst hnn
                refine ⟨exec node st.results, ?_, hteh'⟩
                rw [hdr]
                exact resLookup_append_left _ _ _ _ hresL
          | none =>
            refine ⟨⟨st.visited ++ [nodeId],
                st.results ++ [(nodeId, exec node st.results)]⟩, ?_, hkeys2,
              ⟨[nodeId], rfl⟩, ⟨[(nodeId, exec node st.results)], rfl⟩, ?_⟩
            · rw [hunfold, hvis', if_neg Bool.false_ne_true, hfind]
              show (if node.type == "logic" then _ else _) = _
              rw [hlog, if_pos rfl, hte]
            · intro x hx
              rcases List.mem_append.mp hx with h | h
              · exact Or.inl h
              · right
                rw [List.mem_singleton.mp h]
        · have hlog' : (node.type == "logic") = false := by
            cases h : node.type == "logic"
            · rfl
            · exact absurd h hlog
          obtain ⟨stF, hrunF, hkF, ⟨dv, hdv⟩, ⟨dr, hdr⟩, hsoundF⟩ :=
            htg (edges.filter (fun e => e.source == nodeId))
              ⟨st.visited ++ [nodeId],
                st.results ++ [(nodeId, exec node st.results)]⟩ hkeys2 hf2
          refine ⟨stF, ?_, hkF,
            ⟨nodeId :: dv, by simpa [List.append_assoc] using hdv⟩,
            ⟨(nodeId, exec node st.results) :: dr,
              by simpa [List.append_assoc] using hdr⟩, ?_⟩
          · rw [hunfold, hvis', if_neg Bool.false_ne_true, hfind]
            show (if node.type == "logic" then _ else _) = some stF
            rw [hlog', if_neg Bool.false_ne_true]
            exact hrunF
          · intro x hx
            rcases hsoundF x hx with hx2 | ⟨e, he, hrtg⟩
            · rcases List.mem_append.mp hx2 with h | h
              · exact Or.inl h
              · right
                rw [List.mem_singleton.mp h]
            · right
              refine Relation.ReflTransGen.head ?_ hrtg
              have hem := List.mem_filter.mp he
              have hes : e.source = nodeId := by simpa using hem.2
              refine ⟨e, hem.1, hes, rfl, ?_⟩
              intro node' hfind' htype'
              rw [hfind] at hfind'
              injection hfind' with hnn
              subst hnn
              rw [htype'] at hlog'
              simp at hlog'

/-- C2: in the branching strategy a `logic` node follows at most the one
outgoing edge whose `sourceHandle` matches its evaluated branch.  Hence for
any set `S` containing the start node and closed under every followable edge
(the only edges allowed to leave `S` are the non-matching branches out of the
logic node `L`), a node `T` outside `S` is never visited and never recorded
in the results map; and the run itself always returns a state (a missing
matching edge is not an error). -/
theorem claimC2 (exec : ExecFn) (nodes : List Node) (edges : List Edge)
    (start L T : String) (nodeL : Node) (r : Val) (S : List String)
    (hfind : nodes.find? (fun n => n.id == L) = some nodeL)
    (hLtype : nodeL.type = "logic")
    (hstart : start ∈ S)
    (hclosed : ∀ e ∈ edges, e.source ∈ S → e.target ∉ S →
      e.source = L ∧ e.sourceHandle ≠
        some (if (logicResultField r).truthy then "true" else "false"))
    (hT : T ∉ S) :
    ∃ st', executeBranchingWorkflow exec nodes edges start = some st' ∧
      (resLookup st'.results L = some r →
        T ∉ st'.visited ∧ resLookup st'.results T = none) := by
  have hch := chainP_main exec nodes edges (nodes.length + 1)
  have hKinit : KeysInv ⟨[], []⟩ := by
    intro k hkk
    simp at hkk
  have hfuel : freshL nodes ([] : List String) < nodes.length + 1 := by
    apply Nat.lt_succ_of_le
    calc ((nodes.map Node.id).dedup.filter
          (fun i => !(([] : List String).contains i))).length
        ≤ (nodes.map Node.id).dedup.length := List.length_filter_le _ _
      _ ≤ (nodes.map Node.id).length := (List.dedup_sublist _).length_le
      _ = nodes.length := List.length_map _ _
  obtain ⟨st', hrun, hK, _, _, hsound⟩ := hch start ⟨[], []⟩ hKinit hfuel
  refine ⟨st', hrun, ?_⟩
  intro hres
  have hreach : ∀ x,
      Relation.ReflTransGen (FStep nodes edges st'.results) start x →
      x ∈ S := by
    intro x hx
    induction hx with
    | refl => exact hstart
    | tail hab hstep ih =>
      by_contra hc
      obtain ⟨e, he, hsrc, htgt, hhandle⟩ := hstep
      obtain ⟨heL, hneq⟩ :=
        hclosed e he (hsrc ▸ ih) (htgt ▸ hc)
      obtain ⟨r', hr', hh⟩ := hhandle nodeL (by rw [hsrc] at heL; rw [heL]; exact hfind) hLtype
      rw [← hsrc, heL, hres] at hr'
      injection hr' with hrr
      rw [← hrr] at hh
      exact hneq hh
  have hTvis : T ∉ st'.visited := by
    intro hTv
    rcases hsound T hTv with h | h
    · simp at h
    · exact hT (hreach T h)
  refine ⟨hTvis, (resLookup_none_iff _ _).mpr ?_⟩
  intro hTk
  exact hTvis (hK T hTk)

/-- Witness for C2 on the fixture `S → L`, `L -true→ A`, `L -false→ B` with a
dispatch whose logic result is `true`: the run succeeds and `B` is neither
visited nor recorded. -/
theorem claimC2_witness :
    ∃ st', executeBranchingWorkflow branchExec branchNodes branchEdges "S" =
        some st' ∧
      (resLookup st'.results "L" = some (vobj [("result", vbool true)]) →
        "B" ∉ st'.visited ∧ resLookup st'.results "B" = none) :=
  claimC2 branchExec branchNodes branchEdges "S" "L" "B" ⟨"L", "logic", []⟩
    (vobj [("result", vbool true)]) ["S", "L", "A"]
    (by decide) (by decide) (by decide) (by decide) (by decide)

theorem freshDL_mono (nodes : List Node) (ex : List String) (d : List String)
    (ing : List String) : freshDL nodes (ex ++ d) ing ≤ freshDL nodes ex ing := by
  apply length_filter_mono
  intro x _ hq
  rw [Bool.and_eq_true, Bool.not_eq_true'] at hq ⊢
  refine ⟨?_, hq.2⟩
  rw [contains_false_iff] at hq ⊢
  intro hmem
  exact hq.1 (List.mem_append_left _ hmem)

theorem freshDL_strict (nodes : List Node) (ex ing : List String)
    (nodeId : String) (hnode : nodeId ∈ nodes.map Node.id)
    (hex : ex.contains nodeId = false) (hing : ing.contains nodeId = false) :
    freshDL nodes ex (nodeId :: ing) < freshDL nodes ex ing := by
  apply length_filter_lt _ _ _ nodeId (List.nodup_dedup _)
    (List.mem_dedup.mpr hnode)
  · simp only [Bool.and_eq_true, Bool.not_eq_true']
    exact ⟨hex, hing⟩
  · simp
  · intro y _ hq
    simp only [Bool.and_eq_true, Bool.not_eq_true', contains_false_iff,
      List.mem_cons] at hq ⊢
    exact ⟨hq.1, fun hm => hq.2 (Or.inr hm)⟩

theorem freshDL_le (nodes : List Node) (ex ing : List String) :
    freshDL nodes ex ing ≤ nodes.length := by
  calc ((nodes.map Node.id).dedup.filter
        (fun i => !(ex.contains i) && !(ing.contains i))).length
      ≤ (nodes.map Node.id).dedup.length := List.length_filter_le _ _
    _ ≤ (nodes.map Node.id).length := (List.dedup_sublist _).length_le
    _ = nodes.length := List.length_map _ _

theorem runSrcs_cons (f : String → DepState → Option DepState)
    (e : Edge) (es : List Edge) (st : DepState) :
    runSrcs f (e :: es) st =
      match f e.source st with
      | none => none
      | some st' => runSrcs f es st' := rfl

theorem goodOrder_append (nodes : List Node) (edges : List Edge)
    (ord : List String) (x : String)
    (hgood : GoodOrder nodes edges ord) (hx : predsDone nodes edges x ord) :
    GoodOrder nodes edges (ord ++ [x]) := by
  intro l1 y l2 h
  rcases List.eq_nil_or_concat l2 with hl2 | ⟨l2h, a, hl2⟩
  · subst hl2
    obtain ⟨h1, h2⟩ := List.append_inj' h rfl
    injection h2 with hyx
    subst hyx
    rw [← h1]
    exact hx
  · subst hl2
    rw [List.concat_eq_append] at h
    have h' : ord ++ [x] = (l1 ++ y :: l2h) ++ [a] := by
      rw [h, List.append_assoc, List.cons_append]
    obtain ⟨h1, _⟩ := List.append_inj' h' rfl
    exact hgood l1 y l2h h1

theorem srcsP_of_nodeP (exec : ExecFn) (nodes : List Node) (edges : List Edge)
    (rank : String → Nat)
    (hrank : ∀ e ∈ edges, rank e.source < rank e.target) (fuel : Nat)
    (hnp : NodeP exec nodes edges rank fuel) :
    SrcsP exec nodes edges rank fuel := by
  intro m tl ds
  induction ds with
  | nil =>
    intro st hds hexg htl hinv hf
    exact ⟨st, rfl, rfl, ⟨[], by simp⟩, ⟨[], by simp⟩, hinv, by simp⟩
  | cons e es ih =>
    intro st hds hexg htl hinv hf
    obtain ⟨hee, het⟩ := hds e (List.mem_cons_self e es)
    have hrke : ∀ s ∈ st.executing, rank e.source < rank s := by
      intro s hs
      rw [hexg] at hs
      rcases List.mem_cons.mp hs with hsm | hsm
      · rw [hsm, ← het]
        exact hrank e hee
      · calc rank e.source < rank e.target := hrank e hee
          _ = rank m := by rw [het]
          _ < rank s := htl s hsm
    obtain ⟨stA, hA, hgA, ⟨d, hd⟩, ⟨dr, hdr⟩, hinvA, hmemA⟩ :=
      hnp e.source st hinv hrke hf
    have hfA : freshDL nodes stA.executed stA.executing < fuel := by
      rw [hd, hgA]
      exact lt_of_le_of_lt (freshDL_mono nodes st.executed d st.executing) hf
    obtain ⟨stB, hB, hgB, ⟨d2, hd2⟩, ⟨dr2, hdr2⟩, hinvB, hmemB⟩ :=
      ih stA (fun e' he' => hds e' (List.mem_cons_of_mem e he'))
        (by rw [hgA, hexg]) htl hinvA hfA
    refine ⟨stB, ?_, by rw [hgB, hgA], ⟨d ++ d2, by rw [hd2, hd, List.append_assoc]⟩,
      ⟨dr ++ dr2, by rw [hdr2, hdr, List.append_assoc]⟩, hinvB, ?_⟩
    · rw [runSrcs_cons, hA]
      exact hB
    · intro e' he' hsrc
      rcases List.mem_cons.mp he' with h | h
      · subst h
        rw [hd2]
        exact List.mem_append_left _ (hmemA hsrc)
      · exact hmemB e' h hsrc

theorem nodeP_main (exec : ExecFn) (nodes : List Node) (edges : List Edge)
    (rank : String → Nat)
    (hrank : ∀ e ∈ edges, rank e.source < rank e.target) :
    ∀ fuel, NodeP exec nodes edges rank fuel := by
  intro fuel
  induction fuel with
  | zero =>
    intro nodeId st _ _ hf
    exact absurd hf (Nat.not_lt_zero _)
  | succ fuel ih =>
    have hsp : SrcsP exec nodes edges rank fuel :=
      srcsP_of_nodeP exec nodes edges rank hrank fuel ih
    intro nodeId st hinv hrk hf
    have hunfold : execNodeDeps exec nodes edges (fuel + 1) nodeId st =
        if st.executed.contains nodeId || st.executing.contains nodeId then
          some st
        else
          match nodes.find? (fun n => n.id == nodeId) with
          | none => some ⟨st.executed, (nodeId :: st.executing).erase nodeId,
              st.results⟩
          | some node =>
            match runSrcs (execNodeDeps exec nodes edges fuel)
                (edges.filter (fun e => e.target == nodeId))
                ⟨st.executed, nodeId :: st.executing, st.results⟩ with
            | none => none
            | some st2 =>
              some ⟨st2.executed ++ [nodeId], st2.executing.erase nodeId,
                st2.results ++ [(nodeId, exec node st2.results)]⟩ := rfl
    by_cases hguard : (st.executed.contains nodeId ||
        st.executing.contains nodeId) = true
    · refine ⟨st, ?_, rfl, ⟨[], by simp⟩, ⟨[], by simp⟩, hinv, ?_⟩
      · rw [hunfold, hguard, if_pos rfl]
      · intro _
        rcases Bool.or_eq_true_iff.mp hguard with h | h
        · exact (contains_true_iff _ _).mp h
        · exact absurd (hrk nodeId ((contains_true_iff _ _).mp h))
            (lt_irrefl _)
    · have hguard' : (st.executed.contains nodeId ||
          st.executing.contains nodeId) = false := by
        cases h : st.executed.contains nodeId || st.executing.contains nodeId
        · rfl
        · exact absurd h hguard
      obtain ⟨hexc, hingc⟩ := Bool.or_eq_false_iff.mp hguard'
      have hnex : nodeId ∉ st.executed := (contains_false_iff _ _).mp hexc
      have hning : nodeId ∉ st.executing := (contains_false_iff _ _).mp hingc
      cases hfind : nodes.find? (fun n => n.id == nodeId) with
      | none =>
        have hnonode : ∀ n ∈ nodes, ¬(n.id = nodeId) := by
          intro n hn
          have := List.find?_eq_none.mp hfind n hn
          simpa using this
        refine ⟨st, ?_, rfl, ⟨[], by simp⟩, ⟨[], by simp⟩, hinv, ?_⟩
        · rw [hunfold, hguard', if_neg Bool.false_ne_true, hfind,
            List.erase_cons_head]
        · rintro ⟨n, hn, hnid⟩
          exact absurd hnid (hnonode n hn)
      | some node =>
        have hmemnode : node ∈ nodes := List.mem_of_find?_eq_some hfind
        have hid : node.id = nodeId := by
          have := List.find?_some hfind
          simpa using this
        have hnodeid : nodeId ∈ nodes.map Node.id :=
          List.mem_map.mpr ⟨node, hmemnode, hid⟩
        obtain ⟨hnd, hids, hdisj, hkeys, hgood⟩ := hinv
        have hinv1 : DInv nodes edges
            ⟨st.executed, nodeId :: st.executing, st.results⟩ := by
          refine ⟨hnd, hids, ?_, hkeys, hgood⟩
          intro x hx
          rw [List.mem_cons]
          rintro (h | h)
          · rw [h] at hx
            exact hnex hx
          · exact hdisj x hx h
        have hf1 : freshDL nodes st.executed (nodeId :: st.executing) < fuel := by
          have := freshDL_strict nodes st.executed st.executing nodeId
            hnodeid hexc hingc
          omega
        obtain ⟨st2, hrun2, hg2, ⟨d, hd⟩, ⟨dr, hdr⟩, hinv2, hsrcs2⟩ :=
          hsp nodeId st.executing (edges.filter (fun e => e.target == nodeId))
            ⟨st.executed, nodeId :: st.executing, st.results⟩
            (fun e he => ⟨(List.mem_filter.mp he).1,
              by simpa using (List.mem_filter.mp he).2⟩)
            rfl hrk hinv1 hf1
        obtain ⟨hnd2, hids2, hdisj2, hkeys2, hgood2⟩ := hinv2
        have hnex2 : nodeId ∉ st2.executed := by
          intro hmem
          exact hdisj2 nodeId hmem (by rw [hg2]; exact List.mem_cons_self _ _)
        refine ⟨⟨st2.executed ++ [nodeId], st2.executing.erase nodeId,
            st2.results ++ [(nodeId, exec node st2.results)]⟩, ?_, ?_,
          ⟨d ++ [nodeId], by rw [hd]; simp⟩,
          ⟨dr ++ [(nodeId, exec node st2.results)], by rw [hdr]; simp⟩,
          ?_, ?_⟩
        · rw [hunfold, hguard', if_neg Bool.false_ne_true, hfind]
          dsimp only
          rw [hrun2]
        · show st2.executing.erase nodeId = st.executing
          rw [hg2]
          exact List.erase_cons_head _ _
        · refine ⟨?_, ?_, ?_, ?_, ?_⟩
          · rw [List.nodup_append]
            exact ⟨hnd2, List.nodup_singleton _,
              fun x hx hx2 => hnex2 ((List.mem_singleton.mp hx2) ▸ hx)⟩
          · intro x hx
            rcases List.mem_append.mp hx with h | h
            · exact hids2 x h
            · rw [List.mem_singleton.mp h]
              exact ⟨node, hmemnode, hid⟩
          · intro x hx
            show x ∉ st2.executing.erase nodeId
            rw [hg2, List.erase_cons_head]
            rcases List.mem_append.mp hx with h | h
            · intro hmem
              exact hdisj2 x h (by rw [hg2]; exact List.mem_cons_of_mem _ hmem)
            · rw [List.mem_singleton.mp h]
              exact hning
          · show (st2.results ++ [(nodeId, exec node st2.results)]).map
                Prod.fst = st2.executed ++ [nodeId]
            rw [List.map_append, hkeys2]
            rfl
          · apply goodOrder_append nodes edges st2.executed nodeId hgood2
            intro e he het hsrc
            exact hsrcs2 e
              (List.mem_filter.mpr ⟨he, by simpa using het⟩) hsrc
        · intro _
          exact List.mem_append_right _ (List.mem_singleton.mpr rfl)

theorem runRoots_cons (exec : ExecFn) (nodes : List Node) (edges : List Edge)
    (i : String) (is : List String) (st : DepState) :
    runRoots exec nodes edges (i :: is) st =
      match execNodeDeps exec nodes edges (nodes.length + 1) i st with
      | none => none
      | some st' => runRoots exec nodes edges is st' := rfl

theorem rootsP (exec : ExecFn) (nodes : List Node) (edges : List Edge)
    (rank : String → Nat)
    (hrank : ∀ e ∈ edges, rank e.source < rank e.target) :
    ∀ (is : List String) (st : DepState), DInv nodes edges st →
      st.executing = [] →
      ∃ st', runRoots exec nodes edges is st = some st' ∧
        st'.executing = [] ∧ (∃ d, st'.executed = st.executed ++ d) ∧
        DInv nodes edges st' ∧
        (∀ i ∈ is, (∃ n ∈ nodes, n.id = i) → i ∈ st'.executed) := by
  intro is
  induction is with
  | nil =>
    intro st hinv hg
    exact ⟨st, rfl, hg, ⟨[], by simp⟩, hinv, by simp⟩
  | cons i is ih =>
    intro st hinv hg
    have hrkv : ∀ s ∈ st.executing, rank i < rank s := by
      rw [hg]
      intro s hs
      exact absurd hs (List.not_mem_nil s)
    have hf : freshDL nodes st.executed st.executing < nodes.length + 1 :=
      Nat.lt_succ_of_le (freshDL_le nodes _ _)
    obtain ⟨stA, hA, hgA, ⟨d, hd⟩, _, hinvA, hmemA⟩ :=
      nodeP_main exec nodes edges rank hrank (nodes.length + 1) i st
        hinv hrkv hf
    have hgA' : stA.executing = [] := by rw [hgA, hg]
    obtain ⟨stB, hB, hgB, ⟨d2, hd2⟩, hinvB, hmemB⟩ := ih stA hinvA hgA'
    refine ⟨stB, ?_, hgB, ⟨d ++ d2, by rw [hd2, hd, List.append_assoc]⟩,
      hinvB, ?_⟩
    · rw [runRoots_cons, hA]
      exact hB
    · intro j hj hjn
      rcases List.mem_cons.mp hj with h | h
      · subst h
        rw [hd2]
        exact List.mem_append_left _ (hmemA hjn)
      · exact hmemB j h hjn

theorem indexOf_append_left (l1 l2 : List String) (a : String) (h : a ∈ l1) :
    (l1 ++ l2).indexOf a = l1.indexOf a := by
  induction l1 with
  | nil => exact absurd h (List.not_mem_nil a)
  | cons b t ih =>
    by_cases hab : b = a
    · subst hab
      rw [List.cons_append, List.indexOf_cons_self, List.indexOf_cons_self]
    · rcases List.mem_cons.mp h with h' | h'
      · exact absurd h'.symm hab
      · rw [List.cons_append, List.indexOf_cons_ne _ hab,
          List.indexOf_cons_ne _ hab, ih h']

theorem indexOf_append_head (l1 l2 : List String) (a : String) (h : a ∉ l1) :
    (l1 ++ a :: l2).indexOf a = l1.length := by
  induction l1 with
  | nil => exact List.indexOf_cons_self a l2
  | cons b t ih =>
    have hab : b ≠ a := fun hba => h (hba ▸ List.mem_cons_self b t)
    rw [List.cons_append, List.indexOf_cons_ne _ hab,
      ih (fun hm => h (List.mem_cons_of_mem b hm)), List.length_cons]

theorem depRespects_of_goodOrder (nodes : List Node) (edges : List Edge)
    (ord : List String) (hnd : ord.Nodup)
    (hgood : GoodOrder nodes edges ord) : DepRespects nodes edges ord := by
  intro e he hsrc htgt
  obtain ⟨l1, l2, hsplit⟩ := List.append_of_mem htgt
  have hsl1 : e.source ∈ l1 := hgood l1 e.target l2 hsplit e he rfl hsrc
  have htnl1 : e.target ∉ l1 := by
    rw [hsplit] at hnd
    intro hmem
    exact (List.disjoint_of_nodup_append hnd) hmem (List.mem_cons_self _ _)
  constructor
  · rw [hsplit]
    exact List.mem_append_left _ hsl1
  · rw [hsplit, indexOf_append_left l1 _ _ hsl1,
      indexOf_append_head l1 l2 _ htnl1]
    exact List.indexOf_lt_length.mpr hsl1

/-- C1: on a workflow graph whose acyclicity is witnessed by a rank function
increasing along every edge, the dependency-aware strategy succeeds, records
every node of the input set exactly once in the executed order, keys the
results map exactly by that order, and respects dependencies: every
node-sourced predecessor appears strictly earlier in the order than its
target.  (On a cyclic graph the ordering part fails; see the
counterexample.) -/
theorem claimC1 (exec : ExecFn) (nodes : List Node) (edges : List Edge)
    (rank : String → Nat)
    (hrank : ∀ e ∈ edges, rank e.source < rank e.target) :
    ∃ st', executeDependencyAwareWorkflow exec nodes edges = some st' ∧
      (∀ n ∈ nodes, st'.executed.count n.id = 1) ∧
      st'.results.map Prod.fst = st'.executed ∧
      DepRespects nodes edges st'.executed := by
  have hinit : DInv nodes edges ⟨[], [], []⟩ := by
    refine ⟨List.nodup_nil, ?_, ?_, rfl, ?_⟩
    · intro x hx
      exact absurd hx (List.not_mem_nil x)
    · intro x hx
      exact absurd hx (List.not_mem_nil x)
    · intro l1 x l2 h
      simp at h
  obtain ⟨st', hrun, _, _, hinv', hmem⟩ :=
    rootsP exec nodes edges rank hrank (nodes.map (fun n => n.id))
      ⟨[], [], []⟩ hinit rfl
  obtain ⟨hnd, _, _, hkeys, hgood⟩ := hinv'
  refine ⟨st', hrun, ?_, hkeys,
    depRespects_of_goodOrder nodes edges _ hnd hgood⟩
  intro n hn
  exact List.count_eq_one_of_mem hnd
    (hmem n.id (List.mem_map.mpr ⟨n, hn, rfl⟩) ⟨n, hn, rfl⟩)

/-- C1 counterexample: on the two-node cycle `A → B → A` (no logic node) the
dependency-aware strategy executes `B` before `A`, so the order violates the
dependency edge `A → B`; the exactly-once part still holds, but the claimed
ordering does not extend to cyclic graphs. -/
theorem claimC1_counterexample :
    (executeDependencyAwareWorkflow nullExec cycleNodes cycleEdges).map
        DepState.executed = some ["B", "A"] ∧
    ¬DepRespects cycleNodes cycleEdges ["B", "A"] := by decide

/-- Witness for C1 on the two-node chain `A → B` with the rank function
sending `A` to `0` and everything else to `1`. -/
theorem claimC1_witness :
    ∃ st', executeDependencyAwareWorkflow nullExec linearNodes linearEdges =
        some st' ∧
      (∀ n ∈ linearNodes, st'.executed.count n.id = 1) ∧
      st'.results.map Prod.fst = st'.executed ∧
      DepRespects linearNodes linearEdges st'.executed :=
  claimC1 nullExec linearNodes linearEdges
    (fun s => if s = "A" then 0 else 1) (by decide)

end VisualWorkflow
